import Mathlib

/- Shallow embedding of the fastcache-proxy repository: the CacheManager
   cache-key derivation and fail-closed store operations from
   src/unnamed/part_000 and src/unnamed/part_001, the Server entity from
   src/src/load_balancer/server.pyx, and the LoadBalancer strategies from
   src/unnamed/part_001.  External collaborators (hashlib digests, the json
   serializer, the random source and the redis backend) are abstracted as
   function parameters / oracles; everything else is translated from the
   source. -/

/-- The canonicalization allow-list from CacheManager._generate_cache_key:
a header pair is kept when the lower-casing of its key is in this list. -/
def allowList : List String := ["accept", "accept-encoding", "accept-language"]

/-- The model of Python str.lower() used on header keys: lower-case each
character (Char.toLower, ASCII range), character by character. -/
def pyLower (s : String) : String := String.mk (s.data.map Char.toLower)

/-- Python dict assignment on an insertion-ordered dict represented as an
association list: an existing key keeps its position and gets the new value,
a fresh key is appended at the end. -/
def dictAssign (d : List (String × String)) (k v : String) : List (String × String) :=
  if d.any (fun p => p.1 = k) then
    d.map (fun p => if p.1 = k then (k, v) else p)
  else
    d ++ [(k, v)]

/-- The dict comprehension from CacheManager._generate_cache_key: iterate the
header items in order, keep the pairs whose lower-cased key is allow-listed,
lower-casing the key; a later duplicate lower-cased key overwrites the
earlier value in place, as in a Python dict comprehension. -/
def cache_headers_of (header : List (String × String)) : List (String × String) :=
  header.foldl
    (fun d p => if pyLower p.1 ∈ allowList then dictAssign d (pyLower p.1) p.2 else d) []

/-- Entry order used by json.dumps with sort_keys=True: compare by key. -/
def keyLE (a b : String × String) : Prop := a.1 ≤ b.1

instance : DecidableRel keyLE := fun a b => inferInstanceAs (Decidable (a.1 ≤ b.1))

instance : IsTotal (String × String) keyLE := ⟨fun a b => le_total a.1 b.1⟩

instance : IsTrans (String × String) keyLE := ⟨fun _ _ _ h h2 => le_trans h h2⟩

/-- sort_keys=True of json.dumps: entries are serialized in ascending key
order; the serializer itself is abstracted and receives the sorted list. -/
def sortKeys (l : List (String × String)) : List (String × String) := l.insertionSort keyLE

/-- The string assembled by CacheManager._generate_cache_key before the final
digest: method:url; then, when the header dict is non-empty (Python truthiness
of the optional dict) and its filtered form is non-empty, a colon plus the
serialization of the filtered headers, where jsonDumps abstracts json.dumps
applied to the key-sorted association list; then, when the body is present and
non-empty (Python truthiness of the optional bytes), a colon plus its md5hex
digest. -/
def key_parts_of (md5hex : List Nat → String)
    (jsonDumps : List (String × String) → String)
    (method url : String) (header : Option (List (String × String)))
    (body : Option (List Nat)) : String :=
  let base := method ++ ":" ++ url
  let withHeader :=
    match header with
    | none => base
    | some h =>
      if h.isEmpty then base
      else
        let ch := cache_headers_of h
        if ch.isEmpty then base else base ++ ":" ++ jsonDumps (sortKeys ch)
  match body with
  | none => withHeader
  | some b => if b.isEmpty then withHeader else withHeader ++ ":" ++ md5hex b

/-- CacheManager._generate_cache_key.  sha256hex s abstracts the hex digest
hashlib.sha256(s.encode()).hexdigest(), i.e. SHA-256 of the UTF-8 bytes of s;
md5hex abstracts hashlib.md5(body).hexdigest(); jsonDumps abstracts json.dumps
on the already key-sorted filtered header dict. -/
def _generate_cache_key (sha256hex : String → String) (md5hex : List Nat → String)
    (jsonDumps : List (String × String) → String)
    (method url : String) (header : Option (List (String × String)))
    (body : Option (List Nat)) : String :=
  "cache:" ++ sha256hex (key_parts_of md5hex jsonDumps method url header body)

/-- CacheManager.generate_cache_key, the public cpdef wrapper that just
forwards to _generate_cache_key. -/
def generate_cache_key (sha256hex : String → String) (md5hex : List Nat → String)
    (jsonDumps : List (String × String) → String)
    (method url : String) (header : Option (List (String × String)))
    (body : Option (List Nat)) : String :=
  _generate_cache_key sha256hex md5hex jsonDumps method url header body

/-- Written from the words of claim C1 (and spec section 4.1), to be compared
with the source translation: the string "cache:" followed by the digest of
method:url, extended by a colon plus the sorted serialization of the header
mapping restricted to the allow-listed lower-cased keys whenever that
filtered mapping is non-empty, and extended by a colon plus the md5 digest of
the body whenever the body is present and non-empty. -/
def cacheKeySpec (sha256hex : String → String) (md5hex : List Nat → String)
    (jsonDumps : List (String × String) → String)
    (method url : String) (header : Option (List (String × String)))
    (body : Option (List Nat)) : String :=
  let base := method ++ ":" ++ url
  let filtered := cache_headers_of (header.getD [])
  let s1 := if filtered.isEmpty then base else base ++ ":" ++ jsonDumps (sortKeys filtered)
  let s2 :=
    match body with
    | none => s1
    | some b => if b.isEmpty then s1 else s1 ++ ":" ++ md5hex b
  "cache:" ++ sha256hex s2

/-- CacheManager.get from src/unnamed/part_001.  The redis backend is an
oracle: clusterFetch models self.redis_cluster.get, singleFetch models
await self.redis_client.get (chosen by the truthiness of redis_cluster),
and loads models pickle.loads; every raised error is an Except.error.  The
whole body sits in a try block whose except clause returns None. -/
def CacheManager.get {α : Type} (useCluster : Bool)
    (clusterFetch singleFetch : Except Unit (Option (List Nat)))
    (loads : List Nat → Except Unit α) : Option α :=
  match (if useCluster then clusterFetch else singleFetch) with
  | .error _ => none
  | .ok dataOpt =>
    match dataOpt with
    | none => none
    | some data =>
      if data.isEmpty then none
      else
        match loads data with
        | .error _ => none
        | .ok v => some v

/-- CacheManager.set from src/unnamed/part_001: ttl of -1 selects the
configured default; dumps models pickle.dumps(response_data); the store
oracles model (cluster or single) setex; any raised error makes the except
clause return False, otherwise the function returns True. -/
def CacheManager.set (useCluster : Bool) (ttl defaultTtl : Int)
    (dumps : Except Unit (List Nat))
    (clusterStore singleStore : Int → List Nat → Except Unit Unit) : Bool :=
  let t := if ttl = -1 then defaultTtl else ttl
  match dumps with
  | .error _ => false
  | .ok ser =>
    match (if useCluster then clusterStore t ser else singleStore t ser) with
    | .error _ => false
    | .ok _ => true

/-- CacheManager.delete from src/unnamed/part_001: returns bool(n) where n is
the integer reply of the backend delete; a raised error returns False. -/
def CacheManager.delete (useCluster : Bool) (clusterDel singleDel : Except Unit Int) : Bool :=
  match (if useCluster then clusterDel else singleDel) with
  | .error _ => false
  | .ok n => n != 0

/-- The cluster branch of CacheManager.clear_all: for each node, fetch its
matching keys (first oracle of the pair) and, when the key list is non-empty,
delete them (second oracle); any raised error aborts the loop. -/
def clearClusterNodes : List (Except Unit (List String) × Except Unit Unit) → Except Unit Unit
  | [] => .ok ()
  | node :: rest =>
    match node.1 with
    | .error _ => .error ()
    | .ok keys =>
      if keys.isEmpty then clearClusterNodes rest
      else
        match node.2 with
        | .error _ => .error ()
        | .ok _ => clearClusterNodes rest

/-- The single-node scan loop of CacheManager.clear_all: a do-while over the
scan cursor (the initial bytes cursor is truthy, so the body always runs at
least once; the loop exits when the integer cursor returned by scan is 0,
which is how the Python while condition terminates).  scan and del are
backend oracles; fuel bounds the number of iterations of the model. -/
def clearScanLoop (scan : Nat → Except Unit (Nat × List String))
    (del : List String → Except Unit Int) : Nat → Nat → Except Unit Unit
  | _, 0 => .ok ()
  | cursor, fuel + 1 =>
    match scan cursor with
    | .error _ => .error ()
    | .ok res =>
      match (if res.2.isEmpty then Except.ok 0 else del res.2) with
      | .error _ => .error ()
      | .ok _ => if res.1 = 0 then .ok () else clearScanLoop scan del res.1 fuel

/-- CacheManager.clear_all from src/unnamed/part_001: iterate the cluster
nodes or run the single-node scan loop; any raised error makes the except
clause return False, otherwise the function returns True. -/
def CacheManager.clear_all (useCluster : Bool)
    (nodes : List (Except Unit (List String) × Except Unit Unit))
    (scan : Nat → Except Unit (Nat × List String))
    (del : List String → Except Unit Int) (fuel : Nat) : Bool :=
  match (if useCluster then clearClusterNodes nodes else clearScanLoop scan del 0 fuel) with
  | .error _ => false
  | .ok _ => true

/-- The Server entity from src/src/load_balancer/server.pyx. -/
structure Server where
  name : String
  weight : Int
  current_weight : Int
  effective_weight : Int
  active_connections : Int
  healthy : Bool
deriving DecidableEq

/-- Server.__init__: current_weight starts at 0, effective_weight at weight,
active_connections at 0, healthy at True. -/
def Server.init (name : String) (weight : Int) : Server :=
  { name := name, weight := weight, current_weight := 0, effective_weight := weight,
    active_connections := 0, healthy := true }

/-- Server.increment_connections. -/
def Server.increment_connections (s : Server) : Server :=
  { s with active_connections := s.active_connections + 1 }

/-- Server.decrement_connections: decrements only when strictly positive. -/
def Server.decrement_connections (s : Server) : Server :=
  if s.active_connections > 0 then { s with active_connections := s.active_connections - 1 }
  else s

/-- Server.set_healthy. -/
def Server.set_healthy (s : Server) (status : Bool) : Server :=
  { s with healthy := status }

/-- Placeholder server used with List.getD when an index is known in range. -/
def dummyServer : Server := Server.init "" 0

/-- The LoadBalancer state from src/unnamed/part_001 (the Random instance is
abstracted away: draws are passed as arguments to the selection calls). -/
structure LoadBalancer where
  servers : List Server
  current_index : Nat
  total_weight : Int
  cumulative_weights : List Int
  strategy : Int
deriving DecidableEq

/-- LoadBalancer._calculate_total_weight: the sum of weight over healthy
servers, accumulated in stored order. -/
def _calculate_total_weight (servers : List Server) : Int :=
  servers.foldl (fun total s => if s.healthy then total + s.weight else total) 0

/-- The running-cumulative loop of LoadBalancer._calculate_cumulative_weights. -/
def cumWeightsAux : List Server → Int → List Int
  | [], _ => []
  | s :: rest, acc =>
    if s.healthy then (acc + s.weight) :: cumWeightsAux rest (acc + s.weight)
    else cumWeightsAux rest acc

/-- LoadBalancer._calculate_cumulative_weights: prefix sums of weight over the
healthy servers in stored order. -/
def _calculate_cumulative_weights (servers : List Server) : List Int :=
  cumWeightsAux servers 0

/-- LoadBalancer._get_healthy_server: the healthy servers in stored order. -/
def _get_healthy_server (servers : List Server) : List Server :=
  servers.filter (fun s => s.healthy)

/-- LoadBalancer.__init__ with a given server list and strategy. -/
def LoadBalancer.init (servers : List Server) (strategy : Int) : LoadBalancer :=
  { servers := servers, current_index := 0,
    total_weight := _calculate_total_weight servers,
    cumulative_weights := _calculate_cumulative_weights servers,
    strategy := strategy }

/-- LoadBalancer.refresh_weight: recompute both derived quantities. -/
def refresh_weight (lb : LoadBalancer) : LoadBalancer :=
  { lb with total_weight := _calculate_total_weight lb.servers,
            cumulative_weights := _calculate_cumulative_weights lb.servers }

/-- LoadBalancer._round_robin: on an empty healthy list return None without
touching the cursor; otherwise select healthy[current_index mod count] and
then increment the cursor. -/
def _round_robin (lb : LoadBalancer) : Option Server × LoadBalancer :=
  let healthy := _get_healthy_server lb.servers
  if healthy.isEmpty then (none, lb)
  else (healthy.get? (lb.current_index % healthy.length),
        { lb with current_index := lb.current_index + 1 })

/-- Replace the element at one position of a list, leaving the rest alone
(the effect of mutating the object best points to in the Python loop). -/
def applyAt {α : Type} : List α → Nat → (α → α) → List α
  | [], _, _ => []
  | x :: rest, 0, f => f x :: rest
  | x :: rest, j + 1, f => x :: applyAt rest j f

/-- The loop of LoadBalancer._weighted_round_robin: walk the servers with
their index, skip unhealthy ones, add effective_weight to current_weight,
accumulate the total, and keep the first server whose updated current_weight
is strictly greater than the best so far.  Returns the updated list, the best
(index, updated current_weight) and the accumulated total. -/
def wrrAux : List Server → Nat → Option (Nat × Int) → Int → List Server × Option (Nat × Int) × Int
  | [], _, best, total => ([], best, total)
  | s :: rest, i, best, total =>
    if s.healthy then
      let s' : Server := { s with current_weight := s.current_weight + s.effective_weight }
      let best' :=
        match best with
        | none => some (i, s'.current_weight)
        | some b => if s'.current_weight > b.2 then some (i, s'.current_weight) else some b
      let r := wrrAux rest (i + 1) best' (total + s.effective_weight)
      (s' :: r.1, r.2)
    else
      let r := wrrAux rest (i + 1) best total
      (s :: r.1, r.2)

/-- LoadBalancer._weighted_round_robin, returning the index of the chosen
server (the Python code returns the object sitting at that index) together
with the server list after the call.  When best stays None nothing was
mutated; otherwise the winner additionally has the accumulated total
subtracted from its current_weight. -/
def _weighted_round_robin (servers : List Server) : Option Nat × List Server :=
  let r := wrrAux servers 0 none 0
  match r.2.1 with
  | none => (none, servers)
  | some b =>
    (some b.1, applyAt r.1 b.1 (fun s => { s with current_weight := s.current_weight - r.2.2 }))

/-- LoadBalancer._random with the draw of self.random.randint(0, count - 1)
passed in as d. -/
def _random (lb : LoadBalancer) (d : Int) : Option Server :=
  let healthy := _get_healthy_server lb.servers
  if healthy.isEmpty then none
  else healthy.get? d.toNat

/-- The scanning for-loop of LoadBalancer._weighted_random: the index of the
first entry strictly greater than d, walking the list from position i. -/
def findFirstIdx (d : Int) : List Int → Nat → Option Nat
  | [], _ => none
  | c :: rest, i => if d < c then some i else findFirstIdx d rest (i + 1)

/-- LoadBalancer._weighted_random with the draw of
self.random.randint(0, total_weight - 1) passed in as d.  An empty healthy
list returns None before drawing; when the scan finds an entry the Python
code indexes healthy[i], which raises IndexError when i is out of range
(modeled as Except.error); when no entry exceeds d it falls back to
healthy[-1], the last healthy server. -/
def _weighted_random (lb : LoadBalancer) (d : Int) : Except Unit (Option Server) :=
  let healthy := _get_healthy_server lb.servers
  if healthy.isEmpty then .ok none
  else
    match findFirstIdx d lb.cumulative_weights 0 with
    | some i =>
      match healthy.get? i with
      | some s => .ok (some s)
      | none => .error ()
    | none => .ok healthy.getLast?

/-- LoadBalancer._least_connections: scan the servers in stored order,
skipping unhealthy ones, keeping the first server whose active_connections
is strictly below the best so far. -/
def _least_connections (lb : LoadBalancer) : Option Server :=
  lb.servers.foldl
    (fun best s =>
      if s.healthy then
        match best with
        | none => some s
        | some b => if s.active_connections < b.active_connections then some s else some b
      else best) none

/-- LoadBalancer.get_next_server: dispatch on the strategy field
(0 round robin, 1 weighted round robin, 2 random, 3 weighted random,
4 least connections); any other value returns servers[0] when the list is
non-empty and None otherwise.  d is the draw consumed by the random
strategies; the result carries the state after the call, and the Except
layer carries the IndexError that _weighted_random can raise. -/
def get_next_server (lb : LoadBalancer) (d : Int) : Except Unit (Option Server × LoadBalancer) :=
  if lb.strategy = 0 then
    .ok (_round_robin lb)
  else if lb.strategy = 1 then
    let p := _weighted_round_robin lb.servers
    .ok (p.1.bind (fun j => p.2.get? j), { lb with servers := p.2 })
  else if lb.strategy = 2 then
    .ok (_random lb d, lb)
  else if lb.strategy = 3 then
    (_weighted_random lb d).map (fun r => (r, lb))
  else if lb.strategy = 4 then
    .ok (_least_connections lb, lb)
  else
    .ok (lb.servers.head?, lb)

/-- n serialized calls of _round_robin, collecting the returned servers. -/
def rrRun : LoadBalancer → Nat → List (Option Server) × LoadBalancer
  | lb, 0 => ([], lb)
  | lb, n + 1 =>
    let p := _round_robin lb
    let q := rrRun p.2 n
    (p.1 :: q.1, q.2)

/-- The operations that touch a LoadBalancer or its servers for the lifetime
of the process: a selection call (with its draw), refresh_weight, and the
Server mutators applied to the server at one position. -/
inductive LBOp where
  | select (d : Int)
  | refresh
  | setHealthy (i : Nat) (b : Bool)
  | incConn (i : Nat)
  | decConn (i : Nat)

/-- One step of the Server/LoadBalancer operation model.  A selection call
that raises (the stale weighted random IndexError) leaves the state as the
strategy left it, which for that strategy is unchanged. -/
def lbStep (lb : LoadBalancer) (op : LBOp) : LoadBalancer :=
  match op with
  | .select d =>
    match get_next_server lb d with
    | .ok r => r.2
    | .error _ => lb
  | .refresh => refresh_weight lb
  | .setHealthy i b => { lb with servers := applyAt lb.servers i (fun s => s.set_healthy b) }
  | .incConn i => { lb with servers := applyAt lb.servers i Server.increment_connections }
  | .decConn i => { lb with servers := applyAt lb.servers i Server.decrement_connections }

/-- A run of operations from a starting state. -/
def runOps (lb : LoadBalancer) (ops : List LBOp) : LoadBalancer :=
  ops.foldl lbStep lb

/-- A load balancer whose only server is unhealthy (used as a concrete
state below). -/
def lbNoHealthy : LoadBalancer :=
  LoadBalancer.init [(Server.init "a" 1).set_healthy false] 0

/-- A weighted random balancer over two unit-weight servers whose derived
state was computed while both were healthy, after which the first was marked
unhealthy without refresh_weight: cumulative_weights is stale. -/
def lbStale : LoadBalancer :=
  lbStep (LoadBalancer.init [Server.init "a" 1, Server.init "b" 1] 3) (LBOp.setHealthy 0 false)

/-- A concrete digest stand-in used on concrete inputs: the identity, which
is injective. -/
def shaId : String → String := fun s => s

/-- A concrete body-digest stand-in used on concrete inputs. -/
def md5Const : List Nat → String := fun _ => "m"

/-- A concrete header serializer used on concrete inputs. -/
def jsonPairs : List (String × String) → String :=
  fun l => String.intercalate "," (l.map (fun p => p.1 ++ "=" ++ p.2))

/-- The two connection-counter mutators of Server, as an operation type. -/
inductive ConnOp where
  | inc
  | dec

/-- Apply one connection-counter operation. -/
def applyConnOp (s : Server) : ConnOp → Server
  | .inc => s.increment_connections
  | .dec => s.decrement_connections

/-- Apply a sequence of connection-counter operations. -/
def runConnOps (s : Server) (ops : List ConnOp) : Server :=
  ops.foldl applyConnOp s

/-- The per-server update performed by the weighted round robin loop: a
healthy server gets its effective_weight added to its current_weight,
an unhealthy one is skipped. -/
def updServer (s : Server) : Server :=
  if s.healthy then { s with current_weight := s.current_weight + s.effective_weight } else s

/-- The whole-list effect of the weighted round robin loop before the final
subtraction on the winner. -/
def updList (l : List Server) : List Server := l.map updServer

/-- The sum of effective_weight over healthy servers, the total accumulated
by the weighted round robin loop. -/
def totalEff (l : List Server) : Int :=
  ((l.filter (fun s => s.healthy)).map (fun s => s.effective_weight)).sum

/-- The candidates considered by the weighted round robin loop starting at
index i: for each healthy server, its index and its updated current_weight
(in stored order). -/
def cands : List Server → Nat → List (Nat × Int)
  | [], _ => []
  | s :: rest, i =>
    if s.healthy then (i, s.current_weight + s.effective_weight) :: cands rest (i + 1)
    else cands rest (i + 1)

/-- The best-so-far selection of the weighted round robin loop over the
candidate list: a later candidate replaces the best only when strictly
greater. -/
def bestFold : Option (Nat × Int) → List (Nat × Int) → Option (Nat × Int)
  | b, [] => b
  | b, c :: rest =>
    bestFold
      (match b with
       | none => some c
       | some b0 => if c.2 > b0.2 then some c else some b0) rest

/-- Equality of all Server fields except current_weight (the frame that
selection calls must preserve). -/
def frameEq (a b : Server) : Prop :=
  a.name = b.name ∧ a.weight = b.weight ∧ a.effective_weight = b.effective_weight ∧
  a.active_connections = b.active_connections ∧ a.healthy = b.healthy

/-- A load balancer freshly configured from static (name, weight) input. -/
def initLB (cfg : List (String × Int)) (strategy : Int) : LoadBalancer :=
  LoadBalancer.init (cfg.map (fun p => Server.init p.1 p.2)) strategy

/-- A round-robin balancer over two healthy servers (a concrete state used
below). -/
def lbTwo : LoadBalancer :=
  LoadBalancer.init [Server.init "a" 1, Server.init "b" 1] 0

/-- A weighted random balancer over healthy servers of weights 5 and 3, with
consistent derived state (the spec example). -/
def lbWR : LoadBalancer :=
  LoadBalancer.init [Server.init "a" 5, Server.init "b" 3] 3

/- ===================== theorems ===================== -/

/-- Helper: one connection operation preserves non-negativity of the counter. -/
theorem connOp_nonneg (s : Server) (op : ConnOp) (h : 0 ≤ s.active_connections) :
    0 ≤ (applyConnOp s op).active_connections := by
  cases op with
  | inc =>
    simp only [applyConnOp, Server.increment_connections]
    omega
  | dec =>
    simp only [applyConnOp, Server.decrement_connections]
    split
    · simp only []
      omega
    · exact h

/-- Helper: a run of connection operations preserves non-negativity. -/
theorem runConnOps_nonneg (ops : List ConnOp) (s : Server) (h : 0 ≤ s.active_connections) :
    0 ≤ (runConnOps s ops).active_connections := by
  induction ops generalizing s with
  | nil => exact h
  | cons op rest ih =>
    show 0 ≤ (runConnOps (applyConnOp s op) rest).active_connections
    exact ih _ (connOp_nonneg s op h)

/-- C1: for every method, url, optional header mapping and optional body,
generate_cache_key returns "cache:" followed by the (abstracted) hex SHA-256
digest of the UTF-8 bytes of method:url, extended by a colon plus the
key-sorted JSON serialization of the header mapping restricted to the
lower-cased allow-listed keys whenever that filtered mapping is non-empty,
and extended by a colon plus the hex MD5 digest of the body whenever the body
is present and non-empty. -/
theorem c1_generate_cache_key_matches_spec
    (sha256hex : String → String) (md5hex : List Nat → String)
    (jsonDumps : List (String × String) → String)
    (method url : String) (header : Option (List (String × String)))
    (body : Option (List Nat)) :
    generate_cache_key sha256hex md5hex jsonDumps method url header body =
      cacheKeySpec sha256hex md5hex jsonDumps method url header body := by
  unfold generate_cache_key _generate_cache_key cacheKeySpec key_parts_of
  match header with
  | none => rfl
  | some h =>
    match h with
    | [] => rfl
    | p :: t => rfl

/-- C8: a Server's active_connections counter starts at 0,
increment_connections adds 1, decrement_connections subtracts 1 only when the
counter is strictly positive and is a no-op at 0, and no sequence of
increment/decrement operations started from a fresh server can drive the
counter below 0. -/
theorem c8_active_connections_nonneg (name : String) (weight : Int) (s : Server)
    (ops : List ConnOp) :
    (Server.init name weight).active_connections = 0 ∧
    s.increment_connections.active_connections = s.active_connections + 1 ∧
    (0 < s.active_connections →
      s.decrement_connections.active_connections = s.active_connections - 1) ∧
    (s.active_connections = 0 → s.decrement_connections = s) ∧
    0 ≤ (runConnOps (Server.init name weight) ops).active_connections := by
  refine ⟨rfl, rfl, ?_, ?_, ?_⟩
  · intro h
    simp only [Server.decrement_connections, if_pos h]
  · intro h
    simp only [Server.decrement_connections, h]
    rfl
  · exact runConnOps_nonneg ops _ (by simp [Server.init])

/-- Witness for C8 at a concrete server and operation sequence. -/
theorem c8_witness :
    (0 : Int) < (Server.init "a" 1).increment_connections.active_connections ∧
    (Server.init "a" 1).increment_connections.decrement_connections.active_connections =
      (Server.init "a" 1).increment_connections.active_connections - 1 ∧
    0 ≤ (runConnOps (Server.init "a" 1) [ConnOp.inc, ConnOp.dec, ConnOp.dec]).active_connections :=
  ⟨by decide,
   (c8_active_connections_nonneg "a" 1 (Server.init "a" 1).increment_connections []).2.2.1
     (by decide),
   (c8_active_connections_nonneg "a" 1 (Server.init "a" 1)
     [ConnOp.inc, ConnOp.dec, ConnOp.dec]).2.2.2.2⟩

/-- C10: when the strategy value is outside 0..4, get_next_server returns the
first server of the configured list whenever it is non-empty, regardless of
that server's health, and None only when the list is empty; the state is not
mutated. -/
theorem c10_unknown_strategy_returns_head (lb : LoadBalancer) (d : Int)
    (h0 : lb.strategy ≠ 0) (h1 : lb.strategy ≠ 1) (h2 : lb.strategy ≠ 2)
    (h3 : lb.strategy ≠ 3) (h4 : lb.strategy ≠ 4) :
    get_next_server lb d = .ok (lb.servers.head?, lb) ∧
    (lb.servers ≠ [] → ∃ s, lb.servers.head? = some s) ∧
    (lb.servers = [] → lb.servers.head? = none) := by
  refine ⟨?_, ?_, ?_⟩
  · simp [get_next_server, h0, h1, h2, h3, h4]
  · intro h
    cases hs : lb.servers with
    | nil => exact absurd hs h
    | cons a t => exact ⟨a, rfl⟩
  · intro h
    rw [h]
    rfl

/-- Witness for C10: strategy 7 over a single unhealthy server returns that
server. -/
theorem c10_witness :
    get_next_server (LoadBalancer.init [(Server.init "a" 1).set_healthy false] 7) 0 =
      .ok (some ((Server.init "a" 1).set_healthy false),
        LoadBalancer.init [(Server.init "a" 1).set_healthy false] 7) :=
  (c10_unknown_strategy_returns_head
    (LoadBalancer.init [(Server.init "a" 1).set_healthy false] 7) 0
    (by decide) (by decide) (by decide) (by decide) (by decide)).1

/-- C5: every CacheManager operation that reaches the backing store fails
closed.  When the backend call or the deserialization raises, get returns
None, set returns False, delete returns False and clear_all returns False
(the return types are plain Option/Bool, so no error is propagated), and a
failed get is indistinguishable in its result from a genuine miss. -/
theorem c5_cache_operations_fail_closed {α : Type}
    (uc : Bool) (fc fs : Except Unit (Option (List Nat)))
    (loads : List Nat → Except Unit α)
    (data : List Nat) (ttl dttl : Int) (ser : List Nat)
    (cs ss : Int → List Nat → Except Unit Unit)
    (cd sd : Except Unit Int)
    (nodes : List (Except Unit (List String) × Except Unit Unit))
    (nk : Except Unit Unit) (nkeys : List String)
    (scan : Nat → Except Unit (Nat × List String))
    (del : List String → Except Unit Int) (fuel : Nat) (c' : Nat) (ks : List String) :
    CacheManager.get true (Except.error ()) fs loads = none ∧
    CacheManager.get false fc (Except.error ()) loads = none ∧
    (data ≠ [] → loads data = Except.error () →
      CacheManager.get uc (Except.ok (some data)) (Except.ok (some data)) loads = none) ∧
    CacheManager.get uc (Except.error ()) (Except.error ()) loads =
      CacheManager.get uc (Except.ok none) (Except.ok none) loads ∧
    CacheManager.set uc ttl dttl (Except.error ()) cs ss = false ∧
    CacheManager.set true ttl dttl (Except.ok ser) (fun _ _ => Except.error ()) ss = false ∧
    CacheManager.set false ttl dttl (Except.ok ser) cs (fun _ _ => Except.error ()) = false ∧
    CacheManager.delete true (Except.error ()) sd = false ∧
    CacheManager.delete false cd (Except.error ()) = false ∧
    (scan 0 = Except.error () →
      CacheManager.clear_all false nodes scan del (fuel + 1) = false) ∧
    (scan 0 = Except.ok (c', ks) → ks ≠ [] → del ks = Except.error () →
      CacheManager.clear_all false nodes scan del (fuel + 1) = false) ∧
    CacheManager.clear_all true ((Except.error (), nk) :: nodes) scan del fuel = false ∧
    (nkeys ≠ [] →
      CacheManager.clear_all true
        ((Except.ok nkeys, Except.error ()) :: nodes) scan del fuel = false) := by
  refine ⟨rfl, rfl, ?_, ?_, ?_, rfl, rfl, rfl, rfl, ?_, ?_, rfl, ?_⟩
  · intro hne hload
    have : data.isEmpty = false := by
      cases data with
      | nil => exact absurd rfl hne
      | cons a t => rfl
    cases uc <;> simp [CacheManager.get, this, hload]
  · cases uc <;> rfl
  · cases uc <;> rfl
  · intro hscan
    simp [CacheManager.clear_all, clearScanLoop, hscan]
  · intro hscan hne hdel
    have : ks.isEmpty = false := by
      cases ks with
      | nil => exact absurd rfl hne
      | cons a t => rfl
    simp [CacheManager.clear_all, clearScanLoop, hscan, this, hdel]
  · intro hne
    have : nkeys.isEmpty = false := by
      cases nkeys with
      | nil => exact absurd rfl hne
      | cons a t => rfl
    simp [CacheManager.clear_all, clearClusterNodes, this]

/-- Witness for C5 at concrete failing oracles. -/
theorem c5_witness :
    CacheManager.get (α := Nat) true (Except.error ()) (Except.ok none)
      (fun _ => Except.ok 0) = none ∧
    ([0] ≠ ([] : List Nat) → (fun _ : List Nat => Except.error (α := Nat) ()) [0] =
        Except.error () →
      CacheManager.get true (Except.ok (some [0])) (Except.ok (some [0]))
        (fun _ : List Nat => Except.error (α := Nat) ()) = none) ∧
    CacheManager.set true 5 60 (Except.error ())
      (fun _ _ => Except.ok ()) (fun _ _ => Except.ok ()) = false ∧
    CacheManager.delete true (Except.error ()) (Except.ok 1) = false ∧
    ((fun _ : Nat => Except.error (α := Nat × List String) ()) 0 = Except.error () →
      CacheManager.clear_all false []
        (fun _ => Except.error ()) (fun _ => Except.ok 1) 1 = false) := by
  have h := c5_cache_operations_fail_closed (α := Nat) true
    (Except.ok none) (Except.ok none) (fun _ => Except.error ()) [0] 5 60 []
    (fun _ _ => Except.ok ()) (fun _ _ => Except.ok ()) (Except.ok 1) (Except.ok 1)
    [] (Except.ok ()) [] (fun _ => Except.error ()) (fun _ => Except.ok 1) 0 0 []
  refine ⟨?_, ?_, ?_, ?_, ?_⟩
  · exact (c5_cache_operations_fail_closed (α := Nat) true (Except.ok none) (Except.ok none)
      (fun _ => Except.ok 0) [0] 5 60 [] (fun _ _ => Except.ok ()) (fun _ _ => Except.ok ())
      (Except.ok 1) (Except.ok 1) [] (Except.ok ()) [] (fun _ => Except.ok (0, []))
      (fun _ => Except.ok 1) 0 0 []).1
  · intro h1 h2
    exact h.2.2.1 h1 h2
  · exact h.2.2.2.2.1
  · exact h.2.2.2.2.2.2.2.1
  · intro _
    exact h.2.2.2.2.2.2.2.2.2.1 rfl

/-- Helper: when no server is healthy the healthy filter is empty. -/
theorem healthy_filter_nil {l : List Server} (h : ∀ s ∈ l, s.healthy = false) :
    _get_healthy_server l = [] := by
  induction l with
  | nil => rfl
  | cons a t ih =>
    have ha := h a (List.mem_cons_self a t)
    have ht := ih (fun s hs => h s (List.mem_cons_of_mem a hs))
    simp only [_get_healthy_server, List.filter] at ht ⊢
    rw [ha]
    exact ht

/-- Helper: the weighted round robin loop does not touch an all-unhealthy
list and keeps its accumulators. -/
theorem wrrAux_all_unhealthy {l : List Server} (h : ∀ s ∈ l, s.healthy = false) :
    ∀ i b t, wrrAux l i b t = (l, b, t) := by
  induction l with
  | nil => intro i b t; rfl
  | cons a rest ih =>
    intro i b t
    have ha := h a (List.mem_cons_self a rest)
    have ht := ih (fun s hs => h s (List.mem_cons_of_mem a hs))
    simp [wrrAux, ha, ht]

/-- Helper: the least-connections fold returns its accumulator over an
all-unhealthy list. -/
theorem lcFold_all_unhealthy {l : List Server} (h : ∀ s ∈ l, s.healthy = false)
    (acc : Option Server) :
    l.foldl
      (fun best s =>
        if s.healthy then
          match best with
          | none => some s
          | some b => if s.active_connections < b.active_connections then some s else some b
        else best) acc = acc := by
  induction l generalizing acc with
  | nil => rfl
  | cons a t ih =>
    have ha := h a (List.mem_cons_self a t)
    have ht := ih (fun s hs => h s (List.mem_cons_of_mem a hs))
    simp only [List.foldl, ha]
    simpa [ha] using ht acc

/-- C7: on a server list where no server is healthy, get_next_server returns
None (with the state unchanged) under each of the five configured
strategies. -/
theorem c7_all_unhealthy_returns_none (lb : LoadBalancer) (d : Int)
    (hstrat : lb.strategy = 0 ∨ lb.strategy = 1 ∨ lb.strategy = 2 ∨
      lb.strategy = 3 ∨ lb.strategy = 4)
    (h : ∀ s ∈ lb.servers, s.healthy = false) :
    get_next_server lb d = .ok (none, lb) := by
  obtain ⟨sv, ci, tw, cw, st⟩ := lb
  have hh : _get_healthy_server sv = [] := healthy_filter_nil h
  rcases hstrat with hs | hs | hs | hs | hs <;> subst hs
  · simp [get_next_server, _round_robin, hh]
  · have hw := wrrAux_all_unhealthy h 0 none 0
    simp [get_next_server, _weighted_round_robin, hw]
  · simp [get_next_server, _random, hh]
  · simp [get_next_server, _weighted_random, hh, Except.map]
  · simp [get_next_server, _least_connections, lcFold_all_unhealthy h none]

/-- Witness for C7 at a concrete all-unhealthy balancer. -/
theorem c7_witness : get_next_server lbNoHealthy 0 = .ok (none, lbNoHealthy) :=
  c7_all_unhealthy_returns_none lbNoHealthy 0 (Or.inl rfl) (by decide)

/-- Helper: a non-nil list has isEmpty false. -/
theorem isEmpty_false_of_ne_nil {α : Type} {l : List α} (h : l ≠ []) : l.isEmpty = false := by
  cases l with
  | nil => exact absurd rfl h
  | cons a t => rfl

/-- Helper: in-range get? is the some of getD. -/
theorem get?_eq_some_getD {α : Type} (l : List α) (i : Nat) (d : α) (h : i < l.length) :
    l.get? i = some (l.getD i d) := by
  induction l generalizing i with
  | nil => simp at h
  | cons a t ih =>
    cases i with
    | zero => rfl
    | succ j => exact ih j (by simpa using h)

/-- Helper: _round_robin on a non-empty healthy list selects
healthy[cursor mod count] and increments the cursor. -/
theorem rr_nonempty (lb : LoadBalancer) (hne : _get_healthy_server lb.servers ≠ []) :
    _round_robin lb =
      (some ((_get_healthy_server lb.servers).getD
          (lb.current_index % (_get_healthy_server lb.servers).length) dummyServer),
       { lb with current_index := lb.current_index + 1 }) := by
  have hlen : 0 < (_get_healthy_server lb.servers).length := List.length_pos.mpr hne
  have hmod : lb.current_index % (_get_healthy_server lb.servers).length <
      (_get_healthy_server lb.servers).length := Nat.mod_lt _ hlen
  simp only [_round_robin, isEmpty_false_of_ne_nil hne, Bool.false_eq_true, if_false]
  rw [get?_eq_some_getD _ _ dummyServer hmod]

/-- Helper: n serialized round-robin calls over a fixed non-empty healthy set
produce the servers at cursor offsets 0..n-1 and advance the cursor by n. -/
theorem rrRun_spec (n : Nat) (lb : LoadBalancer)
    (hne : _get_healthy_server lb.servers ≠ []) :
    rrRun lb n =
      ((List.range n).map (fun k => some ((_get_healthy_server lb.servers).getD
          ((lb.current_index + k) % (_get_healthy_server lb.servers).length) dummyServer)),
       { lb with current_index := lb.current_index + n }) := by
  induction n generalizing lb with
  | zero => rfl
  | succ n ih =>
    have step := rr_nonempty lb hne
    have hne' : _get_healthy_server
        ({ lb with current_index := lb.current_index + 1 } : LoadBalancer).servers ≠ [] := hne
    have tail := ih { lb with current_index := lb.current_index + 1 } hne'
    simp only [rrRun, step, tail, List.range_succ_eq_map, List.map_cons, List.map_map,
      Prod.mk.injEq, Nat.add_zero]
    refine ⟨congrArg₂ List.cons rfl ?_, ?_⟩
    · apply List.map_congr_left
      intro k _
      simp only [Function.comp]
      have e : lb.current_index + 1 + k = lb.current_index + (k + 1) := by omega
      simp [e]
    · have e : lb.current_index + 1 + n = lb.current_index + (n + 1) := by omega
      simp [e]

/-- Helper: each residue below N is hit by exactly one offset k below N. -/
theorem mod_cycle_unique (N c i : Nat) (hN : 0 < N) (hi : i < N) :
    ∃! k, k < N ∧ (c + k) % N = i := by
  have hr : c % N < N := Nat.mod_lt _ hN
  refine ⟨(i + N - c % N) % N, ⟨Nat.mod_lt _ hN, ?_⟩, ?_⟩
  · have h1 : (c + (i + N - c % N) % N) % N = (c % N + (i + N - c % N) % N) % N := by
      rw [Nat.mod_add_mod]
    have h2 : (c % N + (i + N - c % N) % N) % N = (c % N + (i + N - c % N)) % N := by
      rw [Nat.add_mod_mod]
    have e : c % N + (i + N - c % N) = i + N := by omega
    rw [h1, h2, e, Nat.add_mod_right, Nat.mod_eq_of_lt hi]
  · rintro k ⟨hk, hkeq⟩
    have h1 : (c + k) % N = (c + (i + N - c % N) % N) % N := by
      rw [hkeq]
      have h1' : (c + (i + N - c % N) % N) % N = (c % N + (i + N - c % N) % N) % N := by
        rw [Nat.mod_add_mod]
      have h2' : (c % N + (i + N - c % N) % N) % N = (c % N + (i + N - c % N)) % N := by
        rw [Nat.add_mod_mod]
      have e : c % N + (i + N - c % N) = i + N := by omega
      rw [h1', h2', e, Nat.add_mod_right, Nat.mod_eq_of_lt hi]
    have hcan : k % N = (i + N - c % N) % N % N := by
      have := Nat.ModEq.add_left_cancel' c h1
      exact this
    rw [Nat.mod_eq_of_lt hk] at hcan
    rw [hcan, Nat.mod_mod_of_dvd _ dvd_rfl]

/-- C3 counterexample: on an all-unhealthy server list, _round_robin returns
None before reaching the increment, so the cursor does NOT increment on a
call that returns none, contradicting the claim that the cursor increments
on every call regardless of outcome. -/
theorem c3_counterexample :
    (_round_robin lbNoHealthy).1 = none ∧
    (_round_robin lbNoHealthy).2.current_index = lbNoHealthy.current_index ∧
    lbNoHealthy.current_index ≠ lbNoHealthy.current_index + 1 := by decide

/-- C3 (amended): the round-robin strategy returns the healthy server at
index cursor mod healthy count and returns none on an empty healthy set; the
cursor increments exactly on the calls that return a server, while a call
that returns none leaves the whole state unchanged; over a fixed set of N
healthy servers, N consecutive serialized calls select the servers at the N
cursor offsets, and each healthy index is selected exactly once. -/
theorem c3_round_robin_amended (lb : LoadBalancer) :
    (_get_healthy_server lb.servers = [] → _round_robin lb = (none, lb)) ∧
    (_get_healthy_server lb.servers ≠ [] →
      _round_robin lb =
        (some ((_get_healthy_server lb.servers).getD
            (lb.current_index % (_get_healthy_server lb.servers).length) dummyServer),
         { lb with current_index := lb.current_index + 1 })) ∧
    (_get_healthy_server lb.servers ≠ [] →
      (rrRun lb (_get_healthy_server lb.servers).length).1 =
        (List.range (_get_healthy_server lb.servers).length).map
          (fun k => some ((_get_healthy_server lb.servers).getD
            ((lb.current_index + k) % (_get_healthy_server lb.servers).length) dummyServer)) ∧
      ∀ i, i < (_get_healthy_server lb.servers).length →
        ∃! k, k < (_get_healthy_server lb.servers).length ∧
          (lb.current_index + k) % (_get_healthy_server lb.servers).length = i) := by
  refine ⟨?_, rr_nonempty lb, ?_⟩
  · intro h
    simp [_round_robin, h]
  · intro h
    refine ⟨by rw [rrRun_spec _ lb h], ?_⟩
    intro i hi
    exact mod_cycle_unique _ lb.current_index i (List.length_pos.mpr h) hi

/-- Witness for C3 at a concrete two-server balancer. -/
theorem c3_witness :
    _get_healthy_server lbTwo.servers ≠ [] ∧
    _round_robin lbTwo =
      (some ((_get_healthy_server lbTwo.servers).getD
          (lbTwo.current_index % (_get_healthy_server lbTwo.servers).length) dummyServer),
       { lbTwo with current_index := lbTwo.current_index + 1 }) :=
  ⟨by decide, (c3_round_robin_amended lbTwo).2.1 (by decide)⟩

/-- Helper: the scan finds nothing iff no entry is strictly greater than d. -/
theorem findFirstIdx_none {d : Int} : ∀ (cum : List Int) (i : Nat),
    findFirstIdx d cum i = none ↔ ∀ c ∈ cum, ¬ d < c := by
  intro cum
  induction cum with
  | nil => intro i; simp [findFirstIdx]
  | cons c rest ih =>
    intro i
    by_cases h : d < c
    · simp [findFirstIdx, h]
    · simp only [findFirstIdx, if_neg h]
      rw [ih (i + 1)]
      constructor
      · intro hall c' hc'
        rcases List.mem_cons.mp hc' with he | hm
        · rw [he]; exact h
        · exact hall c' hm
      · intro hall c' hc'
        exact hall c' (List.mem_cons_of_mem c hc')

/-- Helper: a found index lies below the start offset plus the length. -/
theorem findFirstIdx_some_lt {d : Int} : ∀ (cum : List Int) (i j : Nat),
    findFirstIdx d cum i = some j → j < i + cum.length := by
  intro cum
  induction cum with
  | nil => intro i j h; exact absurd h (by simp [findFirstIdx])
  | cons c rest ih =>
    intro i j h
    by_cases hd : d < c
    · simp only [findFirstIdx, if_pos hd, Option.some.injEq] at h
      simp only [List.length_cons]
      omega
    · simp only [findFirstIdx, if_neg hd] at h
      have := ih (i + 1) j h
      simp only [List.length_cons]
      omega

/-- Helper: the scan finds an index as soon as some entry exceeds d. -/
theorem findFirstIdx_isSome {d : Int} : ∀ (cum : List Int) (i : Nat),
    (∃ c ∈ cum, d < c) → ∃ j, findFirstIdx d cum i = some j := by
  intro cum
  induction cum with
  | nil => intro i h; simp at h
  | cons c rest ih =>
    intro i h
    by_cases hd : d < c
    · exact ⟨i, by simp [findFirstIdx, hd]⟩
    · obtain ⟨c', hc', hdc'⟩ := h
      have hmem : c' ∈ rest := by
        rcases List.mem_cons.mp hc' with he | hm
        · exact absurd (he ▸ hdc') hd
        · exact hm
      obtain ⟨j, hj⟩ := ih (i + 1) ⟨c', hmem, hdc'⟩
      exact ⟨j, by simp [findFirstIdx, hd, hj]⟩

/-- Helper: a found index starting at offset 0 points at the first entry
strictly greater than d. -/
theorem findFirstIdx_first {d : Int} : ∀ (cum : List Int) (i j : Nat),
    findFirstIdx d cum i = some j →
    i ≤ j ∧ j - i < cum.length ∧ d < cum.getD (j - i) 0 ∧
    ∀ k, k < j - i → ¬ d < cum.getD k 0 := by
  intro cum
  induction cum with
  | nil => intro i j h; exact absurd h (by simp [findFirstIdx])
  | cons c rest ih =>
    intro i j h
    by_cases hd : d < c
    · simp [findFirstIdx, hd] at h
      subst h
      refine ⟨Nat.le_refl i, by simp, by simpa using hd, ?_⟩
      intro k hk
      omega
    · simp only [findFirstIdx, if_neg hd] at h
      obtain ⟨h1, h2, h3, h4⟩ := ih (i + 1) j h
      have hji : j - i = (j - (i + 1)) + 1 := by omega
      refine ⟨by omega, by simp only [List.length_cons]; omega, ?_, ?_⟩
      · rw [hji]
        simpa using h3
      · intro k hk
        cases k with
        | zero => simpa using hd
        | succ k' =>
          have : k' < j - (i + 1) := by omega
          simpa using h4 k' this

/-- Helper: the cumulative-weights list has one entry per healthy server. -/
theorem cumWeightsAux_length : ∀ (l : List Server) (a : Int),
    (cumWeightsAux l a).length = (_get_healthy_server l).length := by
  intro l
  induction l with
  | nil => intro a; rfl
  | cons s rest ih =>
    intro a
    by_cases h : s.healthy
    · simp [cumWeightsAux, _get_healthy_server, List.filter, h, ih]
    · simp only [cumWeightsAux, _get_healthy_server, List.filter] at ih ⊢
      simp only [h]
      simpa using ih a

/-- Helper: shifting the accumulator out of the total-weight fold. -/
theorem totalWeight_shift : ∀ (l : List Server) (t : Int),
    l.foldl (fun total s => if s.healthy then total + s.weight else total) t =
      t + _calculate_total_weight l := by
  intro l
  induction l with
  | nil =>
    intro t
    simp [_calculate_total_weight]
  | cons a rest ih =>
    intro t
    have e1 : (a :: rest).foldl (fun total s => if s.healthy then total + s.weight else total) t =
        rest.foldl (fun total s => if s.healthy then total + s.weight else total)
          (if a.healthy then t + a.weight else t) := rfl
    have e2 : _calculate_total_weight (a :: rest) =
        rest.foldl (fun total s => if s.healthy then total + s.weight else total)
          (if a.healthy then 0 + a.weight else 0) := rfl
    rw [e1, e2, ih, ih]
    by_cases h : a.healthy
    · rw [if_pos h, if_pos h]
      ring
    · rw [if_neg h, if_neg h]
      ring

/-- Helper: peeling one server off the total weight. -/
theorem totalWeight_cons (s : Server) (rest : List Server) :
    _calculate_total_weight (s :: rest) =
      (if s.healthy then s.weight else 0) + _calculate_total_weight rest := by
  have e2 : _calculate_total_weight (s :: rest) =
      rest.foldl (fun total s => if s.healthy then total + s.weight else total)
        (if s.healthy then 0 + s.weight else 0) := rfl
  rw [e2, totalWeight_shift]
  by_cases h : s.healthy
  · rw [if_pos h, if_pos h]
    ring
  · rw [if_neg h, if_neg h]

/-- Helper: with no healthy server the total weight is 0. -/
theorem totalWeight_of_no_healthy : ∀ {l : List Server},
    _get_healthy_server l = [] → _calculate_total_weight l = 0 := by
  intro l
  induction l with
  | nil => intro _; rfl
  | cons s rest ih =>
    intro h
    simp only [_get_healthy_server, List.filter] at h
    cases hh : s.healthy with
    | true => rw [hh] at h; exact absurd h (by simp)
    | false =>
      rw [hh] at h
      rw [totalWeight_cons, ih h, hh]
      simp

/-- Helper: with no healthy server the cumulative list is empty. -/
theorem cumWeightsAux_of_no_healthy : ∀ {l : List Server} (a : Int),
    _get_healthy_server l = [] → cumWeightsAux l a = [] := by
  intro l
  induction l with
  | nil => intro a _; rfl
  | cons s rest ih =>
    intro a h
    simp only [_get_healthy_server, List.filter] at h
    cases hh : s.healthy with
    | true => rw [hh] at h; exact absurd h (by simp)
    | false =>
      rw [hh] at h
      simp only [cumWeightsAux, hh, Bool.false_eq_true, if_false]
      exact ih a h

/-- Helper: the accumulated total weight appears in the cumulative list as
soon as some server is healthy (it is its last entry). -/
theorem total_mem_cumWeightsAux : ∀ (l : List Server) (a : Int),
    _get_healthy_server l ≠ [] →
    (a + _calculate_total_weight l) ∈ cumWeightsAux l a := by
  intro l
  induction l with
  | nil => intro a h; exact absurd rfl h
  | cons s rest ih =>
    intro a h
    by_cases hh : s.healthy
    · have e : cumWeightsAux (s :: rest) a =
          (a + s.weight) :: cumWeightsAux rest (a + s.weight) := by
        simp [cumWeightsAux, hh]
      rw [e, totalWeight_cons, if_pos hh]
      by_cases hr : _get_healthy_server rest = []
      · rw [totalWeight_of_no_healthy hr]
        apply List.mem_cons.mpr
        left
        ring
      · apply List.mem_cons.mpr
        right
        have e2 : a + (s.weight + _calculate_total_weight rest) =
            a + s.weight + _calculate_total_weight rest := by ring
        rw [e2]
        exact ih (a + s.weight) hr
    · have hb : s.healthy = false := by revert hh; cases s.healthy <;> simp
      have hrest : _get_healthy_server rest ≠ [] := by
        intro hr
        apply h
        simp [_get_healthy_server, List.filter_cons, hb] at hr ⊢
        exact hr
      have e : cumWeightsAux (s :: rest) a = cumWeightsAux rest a := by
        simp [cumWeightsAux, hb]
      rw [e, totalWeight_cons, if_neg hh]
      have e2 : a + (0 + _calculate_total_weight rest) =
          a + _calculate_total_weight rest := by ring
      rw [e2]
      exact ih a hrest

/-- Helper: when the scan finds an index within the healthy list,
_weighted_random returns the healthy server at that position. -/
theorem wr_found (lb : LoadBalancer) (d : Int) (j : Nat)
    (hj : findFirstIdx d lb.cumulative_weights 0 = some j)
    (hjl : j < (_get_healthy_server lb.servers).length) :
    _weighted_random lb d =
      .ok (some ((_get_healthy_server lb.servers).getD j dummyServer)) := by
  have hne : _get_healthy_server lb.servers ≠ [] :=
    List.length_pos.mp (Nat.lt_of_le_of_lt (Nat.zero_le j) hjl)
  simp only [_weighted_random, isEmpty_false_of_ne_nil hne, Bool.false_eq_true, if_false, hj,
    get?_eq_some_getD _ _ dummyServer hjl]

/-- C4 counterexample: in the stale state lbStale the draw 1 is inside
0 ≤ d < totalWeight and the first cumulative entry strictly greater than 1
sits at position 1, but the healthy list has a single element, so the code
raises IndexError instead of returning the healthy server at that position. -/
theorem c4_counterexample :
    (0 : Int) ≤ 1 ∧ (1 : Int) < lbStale.total_weight ∧
    findFirstIdx 1 lbStale.cumulative_weights 0 = some 1 ∧
    _weighted_random lbStale 1 = .error () := by
  refine ⟨by decide, by decide, by decide, rfl⟩

/-- C4 (amended): on an empty healthy set _weighted_random returns none; when
no cumulative entry strictly exceeds the draw it returns the last healthy
server rather than failing; when the scan position of the first entry
strictly greater than the draw is a valid index into the healthy list, it
returns the healthy server at that position; and whenever the derived state
is consistent with the healthy set and 0 ≤ d < totalWeight, that position is
always valid, so the claimed behavior holds (in stale derived states the
position can exceed the healthy list and the call raises IndexError
instead). -/
theorem c4_weighted_random_amended (lb : LoadBalancer) (d : Int) :
    (_get_healthy_server lb.servers = [] → _weighted_random lb d = .ok none) ∧
    (_get_healthy_server lb.servers ≠ [] →
      (∀ c ∈ lb.cumulative_weights, ¬ d < c) →
      _weighted_random lb d = .ok (_get_healthy_server lb.servers).getLast? ∧
      ((_get_healthy_server lb.servers).getLast?).isSome = true) ∧
    (∀ j, findFirstIdx d lb.cumulative_weights 0 = some j →
      j < (_get_healthy_server lb.servers).length →
      _weighted_random lb d =
        .ok (some ((_get_healthy_server lb.servers).getD j dummyServer))) ∧
    (∀ j, findFirstIdx d lb.cumulative_weights 0 = some j →
      j < lb.cumulative_weights.length ∧ d < lb.cumulative_weights.getD j 0 ∧
      ∀ k, k < j → ¬ d < lb.cumulative_weights.getD k 0) ∧
    (lb.cumulative_weights = _calculate_cumulative_weights lb.servers →
      lb.total_weight = _calculate_total_weight lb.servers →
      _get_healthy_server lb.servers ≠ [] →
      0 ≤ d → d < lb.total_weight →
      ∃ j, findFirstIdx d lb.cumulative_weights 0 = some j ∧
        j < (_get_healthy_server lb.servers).length ∧
        _weighted_random lb d =
          .ok (some ((_get_healthy_server lb.servers).getD j dummyServer))) := by
  refine ⟨?_, ?_, ?_, ?_, ?_⟩
  · intro h
    simp [_weighted_random, h]
  · intro hne hno
    have hn : findFirstIdx d lb.cumulative_weights 0 = none :=
      (findFirstIdx_none lb.cumulative_weights 0).mpr hno
    constructor
    · simp only [_weighted_random, isEmpty_false_of_ne_nil hne, Bool.false_eq_true, if_false, hn]
    · rw [List.getLast?_eq_getLast_of_ne_nil hne]
      rfl
  · intro j hj hjl
    exact wr_found lb d j hj hjl
  · intro j hj
    have h := findFirstIdx_first lb.cumulative_weights 0 j hj
    simpa using h
  · intro hc ht hne h0 hd
    have hmem0 : ((0 : Int) + _calculate_total_weight lb.servers) ∈
        cumWeightsAux lb.servers 0 := total_mem_cumWeightsAux lb.servers 0 hne
    have hmem : _calculate_total_weight lb.servers ∈ lb.cumulative_weights := by
      rw [hc]
      simpa using hmem0
    have hd' : d < _calculate_total_weight lb.servers := by
      rw [ht] at hd
      exact hd
    obtain ⟨j, hj⟩ := findFirstIdx_isSome lb.cumulative_weights 0 ⟨_, hmem, hd'⟩
    have hlt : j < lb.cumulative_weights.length := by
      have := findFirstIdx_some_lt lb.cumulative_weights 0 j hj
      simpa using this
    have hlen : lb.cumulative_weights.length = (_get_healthy_server lb.servers).length := by
      rw [hc]
      exact cumWeightsAux_length lb.servers 0
    have hjl : j < (_get_healthy_server lb.servers).length := hlen ▸ hlt
    exact ⟨j, hj, hjl, wr_found lb d j hj hjl⟩

/-- Witness for C4: weights 5 and 3, draw 6 selects the second server. -/
theorem c4_witness :
    lbWR.cumulative_weights = _calculate_cumulative_weights lbWR.servers ∧
    lbWR.total_weight = _calculate_total_weight lbWR.servers ∧
    _get_healthy_server lbWR.servers ≠ [] ∧ (0 : Int) ≤ 6 ∧ (6 : Int) < lbWR.total_weight ∧
    ∃ j, findFirstIdx 6 lbWR.cumulative_weights 0 = some j ∧
      j < (_get_healthy_server lbWR.servers).length ∧
      _weighted_random lbWR 6 =
        .ok (some ((_get_healthy_server lbWR.servers).getD j dummyServer)) :=
  ⟨rfl, rfl, by decide, by decide, by decide,
   (c4_weighted_random_amended lbWR 6).2.2.2.2 rfl rfl (by decide) (by decide) (by decide)⟩

/-- Helper: splitting totalEff at a healthy head. -/
theorem totalEff_cons_healthy {s : Server} (h : s.healthy = true) (rest : List Server) :
    totalEff (s :: rest) = s.effective_weight + totalEff rest := by
  simp [totalEff, List.filter_cons, h]

/-- Helper: an unhealthy head does not contribute to totalEff. -/
theorem totalEff_cons_unhealthy {s : Server} (h : ¬ s.healthy = true) (rest : List Server) :
    totalEff (s :: rest) = totalEff rest := by
  simp [totalEff, List.filter_cons, h]

/-- Helper: the list component of the weighted round robin loop is the
per-server update of the input list. -/
theorem wrrAux_fst : ∀ (l : List Server) (i : Nat) (b : Option (Nat × Int)) (t : Int),
    (wrrAux l i b t).1 = updList l := by
  intro l
  induction l with
  | nil => intro i b t; rfl
  | cons s rest ih =>
    intro i b t
    by_cases h : s.healthy
    · simp [wrrAux, h, updList, updServer, ih]
    · simp [wrrAux, h, updList, updServer, ih]

/-- Helper: the total component of the weighted round robin loop accumulates
the sum of effective_weight over healthy servers. -/
theorem wrrAux_total : ∀ (l : List Server) (i : Nat) (b : Option (Nat × Int)) (t : Int),
    (wrrAux l i b t).2.2 = t + totalEff l := by
  intro l
  induction l with
  | nil => intro i b t; simp [wrrAux, totalEff]
  | cons s rest ih =>
    intro i b t
    by_cases h : s.healthy
    · rw [totalEff_cons_healthy h]
      simp only [wrrAux, if_pos h]
      rw [ih]
      ring
    · rw [totalEff_cons_unhealthy h]
      simp only [wrrAux, if_neg h]
      rw [ih]

/-- Helper: the best component of the weighted round robin loop is the
best-so-far fold over the candidate list. -/
theorem wrrAux_best : ∀ (l : List Server) (i : Nat) (b : Option (Nat × Int)) (t : Int),
    (wrrAux l i b t).2.1 = bestFold b (cands l i) := by
  intro l
  induction l with
  | nil => intro i b t; rfl
  | cons s rest ih =>
    intro i b t
    by_cases h : s.healthy
    · simp only [wrrAux, if_pos h, cands, bestFold]
      rw [ih]
    · simp only [wrrAux, if_neg h, cands, bestFold]
      rw [ih]

/-- Helper: specification of the best-so-far fold.  Over a candidate list
with strictly increasing indices (and an accumulator whose index precedes
them all), the fold returns none only from an empty run, and a returned best
is either the untouched accumulator dominating every candidate, or a
candidate that strictly dominates the accumulator, dominates every candidate,
and strictly dominates every candidate with a smaller index (first maximum
wins). -/
theorem bestFold_spec : ∀ (cs : List (Nat × Int)) (b : Option (Nat × Int)),
    cs.Pairwise (fun x y => x.1 < y.1) →
    (∀ x ∈ cs, ∀ b0, b = some b0 → b0.1 < x.1) →
    (bestFold b cs = none → b = none ∧ cs = []) ∧
    (∀ r, bestFold b cs = some r →
      (b = some r ∧ ∀ x ∈ cs, x.2 ≤ r.2) ∨
      (r ∈ cs ∧ (∀ b0, b = some b0 → b0.2 < r.2 ∧ b0.1 < r.1) ∧
       (∀ x ∈ cs, x.2 ≤ r.2) ∧ (∀ x ∈ cs, x.1 < r.1 → x.2 < r.2))) := by
  intro cs
  induction cs with
  | nil =>
    intro b _ _
    refine ⟨fun h => ⟨h, rfl⟩, ?_⟩
    intro r h
    left
    exact ⟨h, by simp⟩
  | cons c rest ih =>
    intro b hpw hb
    have hc : ∀ x ∈ rest, c.1 < x.1 := (List.pairwise_cons.mp hpw).1
    have hpw' : rest.Pairwise (fun x y => x.1 < y.1) := (List.pairwise_cons.mp hpw).2
    cases b with
    | none =>
      have hb' : ∀ x ∈ rest, ∀ b0, some c = some b0 → b0.1 < x.1 := by
        intro x hx b0 he
        obtain rfl : c = b0 := Option.some.inj he
        exact hc x hx
      obtain ⟨ihn, ihs⟩ := ih (some c) hpw' hb'
      have hstep : bestFold none (c :: rest) = bestFold (some c) rest := rfl
      constructor
      · intro h
        rw [hstep] at h
        exact absurd (ihn h).1 (by simp)
      · intro r h
        rw [hstep] at h
        rcases ihs r h with ⟨hbr, hle⟩ | ⟨hmem, hbp, hle, hlt⟩
        · obtain rfl : c = r := Option.some.inj hbr
          right
          refine ⟨List.mem_cons_self c rest, fun b0 he => Option.noConfusion he, ?_, ?_⟩
          · intro x hx
            rcases List.mem_cons.mp hx with rfl | hxr
            · exact le_refl _
            · exact hle x hxr
          · intro x hx hxlt
            rcases List.mem_cons.mp hx with rfl | hxr
            · exact absurd hxlt (lt_irrefl _)
            · exact absurd hxlt (by have := hc x hxr; omega)
        · right
          have hcr := hbp c rfl
          refine ⟨List.mem_cons_of_mem c hmem, fun b0 he => Option.noConfusion he, ?_, ?_⟩
          · intro x hx
            rcases List.mem_cons.mp hx with rfl | hxr
            · exact le_of_lt hcr.1
            · exact hle x hxr
          · intro x hx hxlt
            rcases List.mem_cons.mp hx with rfl | hxr
            · exact hcr.1
            · exact hlt x hxr hxlt
    | some b0 =>
      have hb0c : b0.1 < c.1 := hb c (List.mem_cons_self c rest) b0 rfl
      by_cases hgt : c.2 > b0.2
      · have hstep : bestFold (some b0) (c :: rest) = bestFold (some c) rest := by
          have e : bestFold (some b0) (c :: rest) =
              bestFold (if c.2 > b0.2 then some c else some b0) rest := rfl
          rw [e, if_pos hgt]
        have hb' : ∀ x ∈ rest, ∀ b1, some c = some b1 → b1.1 < x.1 := by
          intro x hx b1 he
          obtain rfl : c = b1 := Option.some.inj he
          exact hc x hx
        obtain ⟨ihn, ihs⟩ := ih (some c) hpw' hb'
        constructor
        · intro h
          rw [hstep] at h
          exact absurd (ihn h).1 (by simp)
        · intro r h
          rw [hstep] at h
          rcases ihs r h with ⟨hbr, hle⟩ | ⟨hmem, hbp, hle, hlt⟩
          · obtain rfl : c = r := Option.some.inj hbr
            right
            refine ⟨List.mem_cons_self c rest, ?_, ?_, ?_⟩
            · intro b1 he
              obtain rfl : b0 = b1 := Option.some.inj he
              exact ⟨hgt, hb0c⟩
            · intro x hx
              rcases List.mem_cons.mp hx with rfl | hxr
              · exact le_refl _
              · exact hle x hxr
            · intro x hx hxlt
              rcases List.mem_cons.mp hx with rfl | hxr
              · exact absurd hxlt (lt_irrefl _)
              · exact absurd hxlt (by have := hc x hxr; omega)
          · right
            have hcr := hbp c rfl
            refine ⟨List.mem_cons_of_mem c hmem, ?_, ?_, ?_⟩
            · intro b1 he
              obtain rfl : b0 = b1 := Option.some.inj he
              exact ⟨lt_trans hgt hcr.1, lt_trans hb0c hcr.2⟩
            · intro x hx
              rcases List.mem_cons.mp hx with rfl | hxr
              · exact le_of_lt hcr.1
              · exact hle x hxr
            · intro x hx hxlt
              rcases List.mem_cons.mp hx with rfl | hxr
              · exact hcr.1
              · exact hlt x hxr hxlt
      · have hstep : bestFold (some b0) (c :: rest) = bestFold (some b0) rest := by
          have e : bestFold (some b0) (c :: rest) =
              bestFold (if c.2 > b0.2 then some c else some b0) rest := rfl
          rw [e, if_neg hgt]
        have hb' : ∀ x ∈ rest, ∀ b1, some b0 = some b1 → b1.1 < x.1 := by
          intro x hx b1 he
          obtain rfl : b0 = b1 := Option.some.inj he
          exact hb x (List.mem_cons_of_mem c hx) b0 rfl
        obtain ⟨ihn, ihs⟩ := ih (some b0) hpw' hb'
        constructor
        · intro h
          rw [hstep] at h
          exact absurd (ihn h).1 (by simp)
        · intro r h
          rw [hstep] at h
          rcases ihs r h with ⟨hbr, hle⟩ | ⟨hmem, hbp, hle, hlt⟩
          · left
            refine ⟨hbr, ?_⟩
            obtain rfl : b0 = r := Option.some.inj hbr
            intro x hx
            rcases List.mem_cons.mp hx with rfl | hxr
            · exact not_lt.mp hgt
            · exact hle x hxr
          · right
            have hbr := hbp b0 rfl
            refine ⟨List.mem_cons_of_mem c hmem, ?_, ?_, ?_⟩
            · intro b1 he
              obtain rfl : b0 = b1 := Option.some.inj he
              exact hbr
            · intro x hx
              rcases List.mem_cons.mp hx with rfl | hxr
              · exact le_trans (not_lt.mp hgt) (le_of_lt hbr.1)
              · exact hle x hxr
            · intro x hx hxlt
              rcases List.mem_cons.mp hx with rfl | hxr
              · exact lt_of_le_of_lt (not_lt.mp hgt) hbr.1
              · exact hlt x hxr hxlt

/-- Helper: every candidate index is at least the start offset. -/
theorem cands_ge : ∀ (l : List Server) (i : Nat) (p : Nat × Int), p ∈ cands l i → i ≤ p.1 := by
  intro l
  induction l with
  | nil => intro i p h; simp [cands] at h
  | cons s rest ih =>
    intro i p h
    by_cases hh : s.healthy
    · simp only [cands, if_pos hh] at h
      rcases List.mem_cons.mp h with rfl | hr
      · exact le_refl _
      · exact Nat.le_of_succ_le (ih (i + 1) p hr)
    · simp only [cands, if_neg hh] at h
      exact Nat.le_of_succ_le (ih (i + 1) p h)

/-- Helper: candidate indices are strictly increasing. -/
theorem cands_pairwise : ∀ (l : List Server) (i : Nat),
    (cands l i).Pairwise (fun x y => x.1 < y.1) := by
  intro l
  induction l with
  | nil => intro i; exact List.Pairwise.nil
  | cons s rest ih =>
    intro i
    by_cases hh : s.healthy
    · simp only [cands, if_pos hh]
      refine List.pairwise_cons.mpr ⟨?_, ih (i + 1)⟩
      intro p hp
      have h2 := cands_ge rest (i + 1) p hp
      show i < p.1
      omega
    · simp only [cands, if_neg hh]
      exact ih (i + 1)

/-- Helper: in-range getD equals get. -/
theorem getD_eq_get {α : Type} : ∀ (l : List α) (k : Nat) (d : α) (h : k < l.length),
    l.getD k d = l.get ⟨k, h⟩ := by
  intro l
  induction l with
  | nil => intro k d h; simp at h
  | cons a t ih =>
    intro k d h
    cases k with
    | zero => rfl
    | succ j => exact ih j d (by simpa using h)

/-- Helper: unpacking a candidate into a position of the server list. -/
theorem cands_mem_elim : ∀ (l : List Server) (i : Nat) (p : Nat × Int), p ∈ cands l i →
    ∃ k, k < l.length ∧ p.1 = i + k ∧ (l.getD k dummyServer).healthy = true ∧
      p.2 = (l.getD k dummyServer).current_weight + (l.getD k dummyServer).effective_weight := by
  intro l
  induction l with
  | nil => intro i p h; simp [cands] at h
  | cons s rest ih =>
    intro i p h
    by_cases hh : s.healthy
    · simp only [cands, if_pos hh] at h
      rcases List.mem_cons.mp h with rfl | hr
      · exact ⟨0, by simp, by simp, by simpa using hh, by simp⟩
      · obtain ⟨k, hk, h1, h2, h3⟩ := ih (i + 1) p hr
        refine ⟨k + 1, ?_, by omega, by simpa using h2, by simpa using h3⟩
        simp only [List.length_cons]
        omega
    · simp only [cands, if_neg hh] at h
      obtain ⟨k, hk, h1, h2, h3⟩ := ih (i + 1) p h
      refine ⟨k + 1, ?_, by omega, by simpa using h2, by simpa using h3⟩
      simp only [List.length_cons]
      omega

/-- Helper: every healthy position of the server list yields a candidate. -/
theorem cands_mem_intro : ∀ (l : List Server) (i k : Nat), k < l.length →
    (l.getD k dummyServer).healthy = true →
    (i + k, (l.getD k dummyServer).current_weight + (l.getD k dummyServer).effective_weight)
      ∈ cands l i := by
  intro l
  induction l with
  | nil => intro i k hk _; simp at hk
  | cons s rest ih =>
    intro i k hk hh
    cases k with
    | zero =>
      have hs : s.healthy = true := by simpa using hh
      simp only [cands, if_pos hs]
      simp
    | succ k' =>
      have hk' : k' < rest.length := by simpa using hk
      have hh' : (rest.getD k' dummyServer).healthy = true := by simpa using hh
      have hmem := ih (i + 1) k' hk' hh'
      have e : i + (k' + 1) = (i + 1) + k' := by omega
      by_cases hs : s.healthy
      · simp only [cands, if_pos hs]
        refine List.mem_cons_of_mem _ ?_
        rw [e]
        simpa using hmem
      · simp only [cands, if_neg hs]
        rw [e]
        simpa using hmem

/-- Helper: the weighted round robin loop in terms of its three
components. -/
theorem wrrAux_eq (l : List Server) :
    wrrAux l 0 none 0 = (updList l, bestFold none (cands l 0), totalEff l) := by
  have h1 := wrrAux_fst l 0 none 0
  have h2 := wrrAux_best l 0 none 0
  have h3 := wrrAux_total l 0 none 0
  rw [zero_add] at h3
  cases hw : wrrAux l 0 none 0 with
  | mk a bc =>
    cases bc with
    | mk b c =>
      rw [hw] at h1 h2 h3
      have e1 : a = updList l := h1
      have e2 : b = bestFold none (cands l 0) := h2
      have e3 : c = totalEff l := h3
      rw [e1, e2, e3]

/-- Helper: _weighted_round_robin when no best was found. -/
theorem wrr_best_none (l : List Server)
    (hb : bestFold none (cands l 0) = none) :
    _weighted_round_robin l = (none, l) := by
  simp only [_weighted_round_robin, wrrAux_eq, hb]

/-- Helper: _weighted_round_robin when a best was found. -/
theorem wrr_best_some (l : List Server) (b : Nat × Int)
    (hb : bestFold none (cands l 0) = some b) :
    _weighted_round_robin l =
      (some b.1, applyAt (updList l) b.1
        (fun s => { s with current_weight := s.current_weight - totalEff l })) := by
  simp only [_weighted_round_robin, wrrAux_eq, hb]

/-- C2: a weighted round robin call on a list with at least one healthy
server returns the first healthy index attaining the maximal updated
current_weight (a strictly greater later value would be needed to displace
it), and the resulting list is the input with effective_weight added to every
healthy server's current_weight and the accumulated total additionally
subtracted from exactly the winner; with no healthy servers the call returns
none and mutates nothing. -/
theorem c2_weighted_round_robin (l : List Server) :
    ((∀ s ∈ l, s.healthy = false) → _weighted_round_robin l = (none, l)) ∧
    ((∃ s ∈ l, s.healthy = true) →
      ∃ j, (_weighted_round_robin l).1 = some j ∧
        j < l.length ∧ (l.getD j dummyServer).healthy = true ∧
        (∀ k, k < l.length → (l.getD k dummyServer).healthy = true →
          (l.getD k dummyServer).current_weight + (l.getD k dummyServer).effective_weight ≤
            (l.getD j dummyServer).current_weight + (l.getD j dummyServer).effective_weight) ∧
        (∀ k, k < j → (l.getD k dummyServer).healthy = true →
          (l.getD k dummyServer).current_weight + (l.getD k dummyServer).effective_weight <
            (l.getD j dummyServer).current_weight + (l.getD j dummyServer).effective_weight) ∧
        (_weighted_round_robin l).2 =
          applyAt (updList l) j
            (fun s => { s with current_weight := s.current_weight - totalEff l })) := by
  constructor
  · intro h
    have hw := wrrAux_all_unhealthy h 0 none 0
    simp only [_weighted_round_robin, hw]
  · rintro ⟨s0, hs0, hh0⟩
    obtain ⟨⟨k0, hk0⟩, hget⟩ := List.mem_iff_get.mp hs0
    have hgd : (l.getD k0 dummyServer).healthy = true := by
      rw [getD_eq_get l k0 dummyServer hk0, hget]
      exact hh0
    have hcmem := cands_mem_intro l 0 k0 hk0 hgd
    obtain ⟨ihn, ihs⟩ := bestFold_spec (cands l 0) none (cands_pairwise l 0)
      (fun x _ b0 he => Option.noConfusion he)
    cases hbf : bestFold none (cands l 0) with
    | none =>
      have hnil := (ihn hbf).2
      rw [hnil] at hcmem
      simp at hcmem
    | some r =>
      rcases ihs r hbf with ⟨habs, _⟩ | ⟨hmem, _, hle, hlt⟩
      · exact Option.noConfusion habs
      · obtain ⟨j', hj', h1, h2, h3⟩ := cands_mem_elim l 0 r hmem
        have hrj : r.1 = j' := by omega
        refine ⟨r.1, ?_, ?_, ?_, ?_, ?_, ?_⟩
        · rw [wrr_best_some l r hbf]
        · omega
        · rw [hrj]
          exact h2
        · intro k hk hkh
          have hkm := cands_mem_intro l 0 k hk hkh
          have hx := hle _ hkm
          rw [hrj, ← h3]
          exact hx
        · intro k hk hkh
          have hkl : k < l.length := by omega
          have hkm := cands_mem_intro l 0 k hkl hkh
          have hx := hlt _ hkm (by simpa using hk)
          rw [hrj, ← h3]
          exact hx
        · rw [wrr_best_some l r hbf]

/-- Witness for C2 at the two-server weights 5 and 3 list. -/
theorem c2_witness :
    (∃ s ∈ lbWR.servers, s.healthy = true) ∧
    ∃ j, (_weighted_round_robin lbWR.servers).1 = some j ∧
      j < lbWR.servers.length ∧ (lbWR.servers.getD j dummyServer).healthy = true ∧
      (∀ k, k < lbWR.servers.length → (lbWR.servers.getD k dummyServer).healthy = true →
        (lbWR.servers.getD k dummyServer).current_weight +
            (lbWR.servers.getD k dummyServer).effective_weight ≤
          (lbWR.servers.getD j dummyServer).current_weight +
            (lbWR.servers.getD j dummyServer).effective_weight) ∧
      (∀ k, k < j → (lbWR.servers.getD k dummyServer).healthy = true →
        (lbWR.servers.getD k dummyServer).current_weight +
            (lbWR.servers.getD k dummyServer).effective_weight <
          (lbWR.servers.getD j dummyServer).current_weight +
            (lbWR.servers.getD j dummyServer).effective_weight) ∧
      (_weighted_round_robin lbWR.servers).2 =
        applyAt (updList lbWR.servers) j
          (fun s => { s with current_weight := s.current_weight - totalEff lbWR.servers }) :=
  ⟨⟨Server.init "a" 5, by decide, rfl⟩,
   (c2_weighted_round_robin lbWR.servers).2 ⟨Server.init "a" 5, by decide, rfl⟩⟩

/-- Helper: frameEq is reflexive. -/
theorem frameEq_refl (s : Server) : frameEq s s :=
  ⟨rfl, rfl, rfl, rfl, rfl⟩

/-- Helper: frameEq is transitive. -/
theorem frameEq_trans {a b c : Server} (h1 : frameEq a b) (h2 : frameEq b c) : frameEq a c := by
  obtain ⟨n1, w1, e1, a1, hl1⟩ := h1
  obtain ⟨n2, w2, e2, a2, hl2⟩ := h2
  exact ⟨n1.trans n2, w1.trans w2, e1.trans e2, a1.trans a2, hl1.trans hl2⟩

/-- Helper: applyAt does not change the length. -/
theorem applyAt_length {α : Type} : ∀ (l : List α) (j : Nat) (f : α → α),
    (applyAt l j f).length = l.length := by
  intro l
  induction l with
  | nil => intro j f; rfl
  | cons x rest ih =>
    intro j f
    cases j with
    | zero => rfl
    | succ j' =>
      simp only [applyAt, List.length_cons, ih]

/-- Helper: applyAt with a frame-preserving function preserves the frame at
every position. -/
theorem applyAt_frameEq : ∀ (l : List Server) (j : Nat) (f : Server → Server),
    (∀ s, frameEq s (f s)) →
    ∀ k, frameEq (l.getD k dummyServer) ((applyAt l j f).getD k dummyServer) := by
  intro l
  induction l with
  | nil => intro j f _ k; exact frameEq_refl _
  | cons x rest ih =>
    intro j f hf k
    cases j with
    | zero =>
      cases k with
      | zero => exact hf x
      | succ k' => exact frameEq_refl _
    | succ j' =>
      cases k with
      | zero => exact frameEq_refl _
      | succ k' => exact ih j' f hf k'

/-- Helper: the weighted round robin update preserves everything except
current_weight. -/
theorem updServer_frameEq (s : Server) : frameEq s (updServer s) := by
  by_cases h : s.healthy
  · simp only [updServer, if_pos h]
    exact ⟨rfl, rfl, rfl, rfl, rfl⟩
  · simp only [updServer, if_neg h]
    exact frameEq_refl _

/-- Helper: the whole-list update preserves the frame at every position. -/
theorem updList_frameEq : ∀ (l : List Server) (k : Nat),
    frameEq (l.getD k dummyServer) ((updList l).getD k dummyServer) := by
  intro l
  induction l with
  | nil => intro k; exact frameEq_refl _
  | cons x rest ih =>
    intro k
    cases k with
    | zero => exact updServer_frameEq x
    | succ k' => exact ih k'

/-- Helper: _round_robin never touches the server list. -/
theorem rr_servers (lb : LoadBalancer) : (_round_robin lb).2.servers = lb.servers := by
  simp only [_round_robin]
  by_cases h : (_get_healthy_server lb.servers).isEmpty
  · rw [if_pos h]
  · rw [if_neg h]

/-- Helper: a successful get_next_server call preserves list length and every
Server field except current_weight, and leaves the servers untouched under
every strategy other than weighted round robin. -/
theorem gns_frame (lb : LoadBalancer) (d : Int) (r : Option Server × LoadBalancer)
    (h : get_next_server lb d = .ok r) :
    r.2.servers.length = lb.servers.length ∧
    (∀ k, frameEq (lb.servers.getD k dummyServer) (r.2.servers.getD k dummyServer)) ∧
    (lb.strategy ≠ 1 → r.2.servers = lb.servers) := by
  by_cases h0 : lb.strategy = 0
  · simp only [get_next_server, if_pos h0] at h
    have hr : r = _round_robin lb := (Except.ok.inj h).symm
    have hs : r.2.servers = lb.servers := by rw [hr, rr_servers]
    exact ⟨by rw [hs], fun k => by rw [hs]; exact frameEq_refl _, fun _ => hs⟩
  by_cases h1 : lb.strategy = 1
  · simp only [get_next_server, if_neg h0, if_pos h1] at h
    have hr : r = ((_weighted_round_robin lb.servers).1.bind
        (fun j => (_weighted_round_robin lb.servers).2.get? j),
        { lb with servers := (_weighted_round_robin lb.servers).2 }) := (Except.ok.inj h).symm
    have hs : r.2.servers = (_weighted_round_robin lb.servers).2 := by rw [hr]
    cases hbf : bestFold none (cands lb.servers 0) with
    | none =>
      have hw := wrr_best_none lb.servers hbf
      have hs2 : r.2.servers = lb.servers := by rw [hs, hw]
      exact ⟨by rw [hs2], fun k => by rw [hs2]; exact frameEq_refl _, fun _ => hs2⟩
    | some b =>
      have hw := wrr_best_some lb.servers b hbf
      have hs2 : r.2.servers = applyAt (updList lb.servers) b.1
          (fun s => { s with current_weight := s.current_weight - totalEff lb.servers }) := by
        rw [hs, hw]
      refine ⟨?_, ?_, fun hne => absurd h1 hne⟩
      · rw [hs2, applyAt_length]
        simp [updList]
      · intro k
        rw [hs2]
        refine frameEq_trans (updList_frameEq lb.servers k) ?_
        apply applyAt_frameEq
        intro s
        exact ⟨rfl, rfl, rfl, rfl, rfl⟩
  by_cases h2 : lb.strategy = 2
  · simp only [get_next_server, if_neg h0, if_neg h1, if_pos h2] at h
    have hr : r = (_random lb d, lb) := (Except.ok.inj h).symm
    have hs : r.2.servers = lb.servers := by rw [hr]
    exact ⟨by rw [hs], fun k => by rw [hs]; exact frameEq_refl _, fun _ => hs⟩
  by_cases h3 : lb.strategy = 3
  · simp only [get_next_server, if_neg h0, if_neg h1, if_neg h2, if_pos h3] at h
    cases hwr : _weighted_random lb d with
    | error e =>
      rw [hwr] at h
      exact absurd h (by simp [Except.map])
    | ok v =>
      rw [hwr] at h
      have hr : r = (v, lb) := by
        have : Except.ok (ε := Unit) (v, lb) = Except.ok r := by
          simpa [Except.map] using h
        exact (Except.ok.inj this).symm
      have hs : r.2.servers = lb.servers := by rw [hr]
      exact ⟨by rw [hs], fun k => by rw [hs]; exact frameEq_refl _, fun _ => hs⟩
  by_cases h4 : lb.strategy = 4
  · simp only [get_next_server, if_neg h0, if_neg h1, if_neg h2, if_neg h3, if_pos h4] at h
    have hr : r = (_least_connections lb, lb) := (Except.ok.inj h).symm
    have hs : r.2.servers = lb.servers := by rw [hr]
    exact ⟨by rw [hs], fun k => by rw [hs]; exact frameEq_refl _, fun _ => hs⟩
  · simp only [get_next_server, if_neg h0, if_neg h1, if_neg h2, if_neg h3, if_neg h4] at h
    have hr : r = (lb.servers.head?, lb) := (Except.ok.inj h).symm
    have hs : r.2.servers = lb.servers := by rw [hr]
    exact ⟨by rw [hs], fun k => by rw [hs]; exact frameEq_refl _, fun _ => hs⟩

/-- Helper: applyAt preserves a predicate that the function preserves. -/
theorem applyAt_forall {α : Type} (Q : α → Prop) : ∀ (l : List α) (j : Nat) (f : α → α),
    (∀ s ∈ l, Q s) → (∀ s, Q s → Q (f s)) → ∀ s ∈ applyAt l j f, Q s := by
  intro l
  induction l with
  | nil => intro j f _ _ s hs; simp [applyAt] at hs
  | cons x rest ih =>
    intro j f hall hf s hs
    cases j with
    | zero =>
      rcases List.mem_cons.mp hs with rfl | hr
      · exact hf x (hall x (List.mem_cons_self x rest))
      · exact hall s (List.mem_cons_of_mem x hr)
    | succ j' =>
      rcases List.mem_cons.mp hs with rfl | hr
      · exact hall s (List.mem_cons_self s rest)
      · exact ih j' f (fun t ht => hall t (List.mem_cons_of_mem x ht)) hf s hr

/-- Helper: transporting the per-server invariant across a frame-preserving
list change. -/
theorem forall_eff_of_frame {l l' : List Server} (hlen : l'.length = l.length)
    (hfr : ∀ k, frameEq (l.getD k dummyServer) (l'.getD k dummyServer))
    (h : ∀ s ∈ l, s.effective_weight = s.weight) :
    ∀ s ∈ l', s.effective_weight = s.weight := by
  intro s hs
  obtain ⟨⟨k, hk⟩, hget⟩ := List.mem_iff_get.mp hs
  have hk' : k < l.length := by omega
  have hgd : l'.getD k dummyServer = s := by
    rw [getD_eq_get l' k dummyServer hk, hget]
  have hold : (l.getD k dummyServer) ∈ l := by
    rw [getD_eq_get l k dummyServer hk']
    exact List.get_mem l k hk'
  have he := h _ hold
  obtain ⟨_, hw, heff, _, _⟩ := hfr k
  rw [hgd] at hw heff
  omega

/-- Helper: one operation preserves the effective_weight invariant. -/
theorem lbStep_preserves_eff (lb : LoadBalancer) (op : LBOp)
    (h : ∀ s ∈ lb.servers, s.effective_weight = s.weight) :
    ∀ s ∈ (lbStep lb op).servers, s.effective_weight = s.weight := by
  cases op with
  | select d =>
    simp only [lbStep]
    cases hg : get_next_server lb d with
    | error e => exact h
    | ok r =>
      obtain ⟨hlen, hfr, _⟩ := gns_frame lb d r hg
      exact forall_eff_of_frame hlen hfr h
  | refresh => exact h
  | setHealthy i b =>
    simp only [lbStep]
    apply applyAt_forall _ lb.servers i _ h
    intro s hq
    simpa [Server.set_healthy] using hq
  | incConn i =>
    simp only [lbStep]
    apply applyAt_forall _ lb.servers i _ h
    intro s hq
    simpa [Server.increment_connections] using hq
  | decConn i =>
    simp only [lbStep]
    apply applyAt_forall _ lb.servers i _ h
    intro s hq
    by_cases hc : s.active_connections > 0
    · simpa [Server.decrement_connections, hc] using hq
    · simpa [Server.decrement_connections, hc] using hq

/-- Helper: a run of operations preserves the effective_weight invariant. -/
theorem runOps_preserves_eff : ∀ (ops : List LBOp) (lb : LoadBalancer),
    (∀ s ∈ lb.servers, s.effective_weight = s.weight) →
    ∀ s ∈ (runOps lb ops).servers, s.effective_weight = s.weight := by
  intro ops
  induction ops with
  | nil => intro lb h; exact h
  | cons op rest ih =>
    intro lb h
    show ∀ s ∈ (runOps (lbStep lb op) rest).servers, _
    exact ih _ (lbStep_preserves_eff lb op h)

/-- C9: effective_weight is initialized to the static weight and no Server or
LoadBalancer operation ever mutates it, so in every reachable state every
server satisfies effective_weight = weight; moreover a selection call changes
no Server field other than current_weight (frameEq), and under any strategy
other than weighted round robin it leaves the server list untouched. -/
theorem c9_effective_weight_never_mutated (cfg : List (String × Int)) (strategy : Int)
    (ops : List LBOp) (name : String) (w : Int) (lb : LoadBalancer) (d : Int)
    (r : Option Server × LoadBalancer) :
    (Server.init name w).effective_weight = (Server.init name w).weight ∧
    (∀ s ∈ (runOps (initLB cfg strategy) ops).servers, s.effective_weight = s.weight) ∧
    (get_next_server lb d = .ok r →
      r.2.servers.length = lb.servers.length ∧
      (∀ k, frameEq (lb.servers.getD k dummyServer) (r.2.servers.getD k dummyServer)) ∧
      (lb.strategy ≠ 1 → r.2.servers = lb.servers)) := by
  refine ⟨rfl, ?_, fun h => gns_frame lb d r h⟩
  apply runOps_preserves_eff
  intro s hs
  simp only [initLB, LoadBalancer.init] at hs
  obtain ⟨p, _, hp⟩ := List.mem_map.mp hs
  rw [← hp]
  rfl

/-- Witness for C9 at a concrete configuration, operation sequence and
selection call. -/
theorem c9_witness :
    (Server.init "a" 2).effective_weight = (Server.init "a" 2).weight ∧
    (∀ s ∈ (runOps (initLB [("a", 2), ("b", 3)] 1)
        [LBOp.select 0, LBOp.incConn 0, LBOp.refresh, LBOp.setHealthy 1 false,
         LBOp.select 0]).servers, s.effective_weight = s.weight) ∧
    (((none, lbNoHealthy) : Option Server × LoadBalancer).2.servers.length =
        lbNoHealthy.servers.length ∧
      (∀ k, frameEq (lbNoHealthy.servers.getD k dummyServer)
        (((none, lbNoHealthy) : Option Server × LoadBalancer).2.servers.getD k dummyServer)) ∧
      (lbNoHealthy.strategy ≠ 1 →
        ((none, lbNoHealthy) : Option Server × LoadBalancer).2.servers =
          lbNoHealthy.servers)) := by
  have h := c9_effective_weight_never_mutated [("a", 2), ("b", 3)] 1
    [LBOp.select 0, LBOp.incConn 0, LBOp.refresh, LBOp.setHealthy 1 false, LBOp.select 0]
    "a" 2 lbNoHealthy 0 ((none, lbNoHealthy) : Option Server × LoadBalancer)
  exact ⟨h.1, h.2.1, h.2.2 (by rfl)⟩

/-- Helper: left cancellation of string append. -/
theorem string_append_left_cancel {s t1 t2 : String} (h : s ++ t1 = s ++ t2) : t1 = t2 := by
  apply String.ext
  have hd := congrArg String.data h
  rw [String.data_append, String.data_append] at hd
  exact List.append_cancel_left hd

/-- Helper: right cancellation of string append. -/
theorem string_append_right_cancel {s t1 t2 : String} (h : t1 ++ s = t2 ++ s) : t1 = t2 := by
  apply String.ext
  have hd := congrArg String.data h
  rw [String.data_append, String.data_append] at hd
  exact List.append_cancel_right hd

/-- Helper: on a present header dict the assembled string depends on the dict
only through its filtered form (an empty dict filters to an empty form). -/
theorem key_parts_some (md5hex : List Nat → String)
    (jsonDumps : List (String × String) → String) (method url : String)
    (body : Option (List Nat)) (h : List (String × String)) :
    key_parts_of md5hex jsonDumps method url (some h) body =
      (let base := method ++ ":" ++ url
       let ch := cache_headers_of h
       let wh := if ch.isEmpty then base else base ++ ":" ++ jsonDumps (sortKeys ch)
       match body with
       | none => wh
       | some b => if b.isEmpty then wh else wh ++ ":" ++ md5hex b) := by
  cases h with
  | nil => rfl
  | cons p t => rfl

/-- Helper: two header dicts whose filtered forms sort equally give equal
cache keys. -/
theorem gck_eq_of_sorted_eq (sha256hex : String → String) (md5hex : List Nat → String)
    (jsonDumps : List (String × String) → String) (method url : String)
    (body : Option (List Nat)) {h1 h2 : List (String × String)}
    (hs : sortKeys (cache_headers_of h1) = sortKeys (cache_headers_of h2)) :
    generate_cache_key sha256hex md5hex jsonDumps method url (some h1) body =
      generate_cache_key sha256hex md5hex jsonDumps method url (some h2) body := by
  have hlen : (cache_headers_of h1).length = (cache_headers_of h2).length := by
    have p1 := (List.perm_insertionSort keyLE (cache_headers_of h1)).length_eq
    have p2 := (List.perm_insertionSort keyLE (cache_headers_of h2)).length_eq
    rw [← p1, ← p2]
    unfold sortKeys at hs
    rw [hs]
  have hemp : (cache_headers_of h1).isEmpty = (cache_headers_of h2).isEmpty := by
    cases c1 : cache_headers_of h1 with
    | nil =>
      cases c2 : cache_headers_of h2 with
      | nil => rfl
      | cons q t2 => rw [c1, c2] at hlen; simp at hlen
    | cons q t1 =>
      cases c2 : cache_headers_of h2 with
      | nil => rw [c1, c2] at hlen; simp at hlen
      | cons q2 t2 => rfl
  unfold generate_cache_key _generate_cache_key
  rw [key_parts_some, key_parts_some]
  simp only [hemp, hs]

/-- Helper: two key-sorted association lists with the same entries and
duplicate-free keys are equal. -/
theorem sorted_perm_eq : ∀ (l1 l2 : List (String × String)),
    l1.Perm l2 → l1.Sorted keyLE → l2.Sorted keyLE →
    (l1.map Prod.fst).Nodup → l1 = l2 := by
  intro l1
  induction l1 with
  | nil =>
    intro l2 hp _ _ _
    exact hp.nil_eq
  | cons a t1 ih =>
    intro l2 hp hs1 hs2 hnd
    cases l2 with
    | nil => cases hp.eq_nil
    | cons b t2 =>
      by_cases hab : a = b
      · subst hab
        have hp' : t1.Perm t2 := hp.cons_inv
        have hnd' : (t1.map Prod.fst).Nodup := by
          rw [List.map_cons] at hnd
          exact (List.nodup_cons.mp hnd).2
        rw [ih t2 hp' hs1.of_cons hs2.of_cons hnd']
      · have hbmem : b ∈ a :: t1 := hp.symm.subset (List.mem_cons_self b t2)
        have hamem : a ∈ b :: t2 := hp.subset (List.mem_cons_self a t1)
        have hb1 : b ∈ t1 := by
          rcases List.mem_cons.mp hbmem with he | hm
          · exact absurd he.symm hab
          · exact hm
        have ha2 : a ∈ t2 := by
          rcases List.mem_cons.mp hamem with he | hm
          · exact absurd he hab
          · exact hm
        have h1 : keyLE a b := List.rel_of_sorted_cons hs1 b hb1
        have h2 : keyLE b a := List.rel_of_sorted_cons hs2 a ha2
        have heq : a.1 = b.1 := le_antisymm h1 h2
        have hnda : a.1 ∉ t1.map Prod.fst := by
          rw [List.map_cons] at hnd
          exact (List.nodup_cons.mp hnd).1
        exact absurd (by
          have hmem : b.1 ∈ t1.map Prod.fst := List.mem_map_of_mem Prod.fst hb1
          rw [← heq] at hmem
          exact hmem) hnda

/-- Helper: the dict comprehension only looks at the pairs that pass the
allow-list filter. -/
theorem foldl_step_filter : ∀ (h : List (String × String)) (d : List (String × String)),
    h.foldl (fun d p => if pyLower p.1 ∈ allowList then dictAssign d (pyLower p.1) p.2 else d) d =
      (h.filter (fun p => decide (pyLower p.1 ∈ allowList))).foldl
        (fun d p => if pyLower p.1 ∈ allowList then dictAssign d (pyLower p.1) p.2 else d) d := by
  intro h
  induction h with
  | nil => intro d; rfl
  | cons p t ih =>
    intro d
    by_cases hc : pyLower p.1 ∈ allowList
    · have hf : (p :: t).filter (fun p => decide (pyLower p.1 ∈ allowList)) =
          p :: t.filter (fun p => decide (pyLower p.1 ∈ allowList)) := by
        simp [List.filter_cons, hc]
      rw [hf]
      simp only [List.foldl_cons]
      exact ih _
    · have hf : (p :: t).filter (fun p => decide (pyLower p.1 ∈ allowList)) =
          t.filter (fun p => decide (pyLower p.1 ∈ allowList)) := by
        simp [List.filter_cons, hc]
      rw [hf]
      simp only [List.foldl_cons, if_neg hc]
      exact ih d

/-- Helper: cache_headers_of only depends on the allow-listed sublist. -/
theorem cache_headers_of_filter_eq {h1 h2 : List (String × String)}
    (hfil : h1.filter (fun p => decide (pyLower p.1 ∈ allowList)) =
      h2.filter (fun p => decide (pyLower p.1 ∈ allowList))) :
    cache_headers_of h1 = cache_headers_of h2 := by
  unfold cache_headers_of
  rw [foldl_step_filter h1, foldl_step_filter h2, hfil]

/-- Helper: sorting the filtered headers only permutes them. -/
theorem sortKeys_perm (l : List (String × String)) : (sortKeys l).Perm l :=
  List.perm_insertionSort keyLE l

/-- Helper: the sorted filtered headers are sorted by key. -/
theorem sortKeys_sorted (l : List (String × String)) : (sortKeys l).Sorted keyLE :=
  List.sorted_insertionSort keyLE l

/-- Helper: when the lower-cased header keys are pairwise distinct, the dict
comprehension never overwrites, so it is the filtered list with keys
lower-cased, in input order. -/
theorem cache_headers_aux : ∀ (h : List (String × String)) (d : List (String × String)),
    (∀ p ∈ h, pyLower p.1 ∈ allowList → d.any (fun q => q.1 = pyLower p.1) = false) →
    (h.map (fun p => pyLower p.1)).Nodup →
    h.foldl (fun d p => if pyLower p.1 ∈ allowList then dictAssign d (pyLower p.1) p.2 else d) d =
      d ++ (h.filter (fun p => decide (pyLower p.1 ∈ allowList))).map
        (fun p => (pyLower p.1, p.2)) := by
  intro h
  induction h with
  | nil => intro d _ _; simp
  | cons p t ih =>
    intro d hpre hnd
    have hnd2 : (pyLower p.1 :: t.map (fun p => pyLower p.1)).Nodup := by
      rw [List.map_cons] at hnd
      exact hnd
    obtain ⟨hnotin, hndt⟩ := List.nodup_cons.mp hnd2
    by_cases hc : pyLower p.1 ∈ allowList
    · have hany := hpre p (List.mem_cons_self p t) hc
      have hda : dictAssign d (pyLower p.1) p.2 = d ++ [(pyLower p.1, p.2)] := by
        simp [dictAssign, hany]
      have hpre' : ∀ q ∈ t, pyLower q.1 ∈ allowList →
          (d ++ [(pyLower p.1, p.2)]).any (fun r => r.1 = pyLower q.1) = false := by
        intro q hq hqc
        rw [List.any_append]
        have hd1 := hpre q (List.mem_cons_of_mem p hq) hqc
        have hne : pyLower q.1 ≠ pyLower p.1 := by
          intro he
          apply hnotin
          rw [← he]
          exact List.mem_map_of_mem _ hq
        simp [hd1, Ne.symm hne]
      have hf : (p :: t).filter (fun p => decide (pyLower p.1 ∈ allowList)) =
          p :: t.filter (fun p => decide (pyLower p.1 ∈ allowList)) := by
        simp [List.filter_cons, hc]
      rw [hf]
      simp only [List.foldl_cons]
      rw [if_pos hc, hda, ih _ hpre' hndt]
      simp [List.append_assoc]
    · have hf : (p :: t).filter (fun p => decide (pyLower p.1 ∈ allowList)) =
          t.filter (fun p => decide (pyLower p.1 ∈ allowList)) := by
        simp [List.filter_cons, hc]
      rw [hf]
      simp only [List.foldl_cons]
      rw [if_neg hc]
      exact ih d (fun q hq hqc => hpre q (List.mem_cons_of_mem p hq) hqc) hndt

/-- Helper: closed form of cache_headers_of under duplicate-free lower-cased
keys. -/
theorem cache_headers_nodup_eq (h : List (String × String))
    (hnd : (h.map (fun p => pyLower p.1)).Nodup) :
    cache_headers_of h =
      (h.filter (fun p => decide (pyLower p.1 ∈ allowList))).map
        (fun p => (pyLower p.1, p.2)) := by
  have e := cache_headers_aux h [] (fun p _ _ => rfl) hnd
  simpa [cache_headers_of] using e

/-- Helper: equal allow-listed sublists give equal cache keys. -/
theorem gck_eq_of_filter_eq (sha256hex : String → String) (md5hex : List Nat → String)
    (jsonDumps : List (String × String) → String) (method url : String)
    (body : Option (List Nat)) {h1 h2 : List (String × String)}
    (hfil : h1.filter (fun p => decide (pyLower p.1 ∈ allowList)) =
      h2.filter (fun p => decide (pyLower p.1 ∈ allowList))) :
    generate_cache_key sha256hex md5hex jsonDumps method url (some h1) body =
      generate_cache_key sha256hex md5hex jsonDumps method url (some h2) body := by
  apply gck_eq_of_sorted_eq
  rw [cache_headers_of_filter_eq hfil]

/-- Helper: the filtered form of a single accept header. -/
theorem cache_headers_accept (v : String) :
    cache_headers_of [("accept", v)] = [("accept", v)] := rfl

/-- Helper: the assembled string for a lone accept header and no body. -/
theorem key_parts_accept_none (md5hex : List Nat → String)
    (jsonDumps : List (String × String) → String) (method url v : String) :
    key_parts_of md5hex jsonDumps method url (some [("accept", v)]) none =
      (method ++ ":" ++ url ++ ":") ++ jsonDumps [("accept", v)] := rfl

/-- Helper: the assembled string for a lone accept header and a body. -/
theorem key_parts_accept_some (md5hex : List Nat → String)
    (jsonDumps : List (String × String) → String) (method url v : String) (b : List Nat) :
    key_parts_of md5hex jsonDumps method url (some [("accept", v)]) (some b) =
      (if b.isEmpty then (method ++ ":" ++ url ++ ":") ++ jsonDumps [("accept", v)]
       else ((method ++ ":" ++ url ++ ":") ++ jsonDumps [("accept", v)]) ++ ":" ++ md5hex b) :=
  rfl

/-- C6 counterexample: the header dicts differing only in insertion order of
two keys that share the same lower-casing are permutations of one another,
yet generate different cache keys (instantiated at an injective digest),
because the dict comprehension keeps the last value for the shared
lower-cased key. -/
theorem c6_counterexample :
    List.Perm [("Accept", "x"), ("ACCEPT", "y")] [("ACCEPT", "y"), ("Accept", "x")] ∧
    generate_cache_key shaId md5Const jsonPairs "GET" "/u"
        (some [("Accept", "x"), ("ACCEPT", "y")]) none ≠
      generate_cache_key shaId md5Const jsonPairs "GET" "/u"
        (some [("ACCEPT", "y"), ("Accept", "x")]) none := by
  constructor
  · exact List.Perm.swap ("ACCEPT", "y") ("Accept", "x") []
  · decide

/-- Helper: under duplicate-free lower-cased header keys, the filtered dict
has duplicate-free keys. -/
theorem cache_headers_keys_nodup (h : List (String × String))
    (hnd : (h.map (fun p => pyLower p.1)).Nodup) :
    ((cache_headers_of h).map Prod.fst).Nodup := by
  rw [cache_headers_nodup_eq h hnd, List.map_map]
  have hcomp : Prod.fst ∘ (fun p : String × String => (pyLower p.1, p.2)) =
      (fun p : String × String => pyLower p.1) := rfl
  rw [hcomp]
  have hsub : List.Sublist
      ((h.filter (fun p => decide (pyLower p.1 ∈ allowList))).map
        (fun p => pyLower p.1))
      (h.map (fun p => pyLower p.1)) :=
    (List.filter_sublist h).map _
  exact hnd.sublist hsub

/-- Helper: two filtered dicts that agree everywhere except in the value
stored under the key accept sort to different lists when the keys are
duplicate-free. -/
theorem sorted_ne_of_value_ne {A B : List (String × String)} {v1 v2 : String}
    (hv : v1 ≠ v2)
    (hknd : ((A ++ ("accept", v2) :: B).map Prod.fst).Nodup)
    (hs : sortKeys (A ++ ("accept", v1) :: B) = sortKeys (A ++ ("accept", v2) :: B)) :
    False := by
  have hmem1 : ("accept", v1) ∈ A ++ ("accept", v1) :: B :=
    List.mem_append.mpr (Or.inr (List.mem_cons_self _ _))
  have hmem2 : ("accept", v1) ∈ A ++ ("accept", v2) :: B := by
    have t1 : ("accept", v1) ∈ sortKeys (A ++ ("accept", v1) :: B) :=
      ((sortKeys_perm _).mem_iff).mpr hmem1
    rw [hs] at t1
    exact ((sortKeys_perm _).mem_iff).mp t1
  rw [List.map_append, List.map_cons] at hknd
  obtain ⟨hndA, hndCons, hdisj⟩ := List.nodup_append.mp hknd
  rcases List.mem_append.mp hmem2 with hA | hmid
  · have haccA : "accept" ∈ A.map Prod.fst := by
      simpa using List.mem_map_of_mem Prod.fst hA
    exact hdisj haccA (by simp)
  · rcases List.mem_cons.mp hmid with heq2 | hB
    · injection heq2 with _ hval
      exact hv hval
    · have haccB : "accept" ∈ B.map Prod.fst := by
        simpa using List.mem_map_of_mem Prod.fst hB
      exact (List.nodup_cons.mp hndCons).1 (by simpa using haccB)

/-- Helper: the assembled string for a present header dict and no body,
written through the filtered form. -/
theorem key_parts_some_none (md5hex : List Nat → String)
    (jsonDumps : List (String × String) → String) (method url : String)
    (h : List (String × String)) :
    key_parts_of md5hex jsonDumps method url (some h) none =
      (if (cache_headers_of h).isEmpty then method ++ ":" ++ url
       else method ++ ":" ++ url ++ ":" ++ jsonDumps (sortKeys (cache_headers_of h))) := by
  cases h with
  | nil => rfl
  | cons p t => rfl

/-- Helper: the assembled string for a present header dict and a body,
written through the filtered form. -/
theorem key_parts_some_some (md5hex : List Nat → String)
    (jsonDumps : List (String × String) → String) (method url : String)
    (h : List (String × String)) (b : List Nat) :
    key_parts_of md5hex jsonDumps method url (some h) (some b) =
      (let wh := if (cache_headers_of h).isEmpty then method ++ ":" ++ url
         else method ++ ":" ++ url ++ ":" ++ jsonDumps (sortKeys (cache_headers_of h))
       if b.isEmpty then wh else wh ++ ":" ++ md5hex b) := by
  cases h with
  | nil => rfl
  | cons p t => rfl

/-- Helper: two requests whose filtered header dicts are non-empty and whose
serialized sorted forms differ get different cache keys under an injective
digest. -/
theorem gck_ne_of_json_ne (sha256hex : String → String) (md5hex : List Nat → String)
    (jsonDumps : List (String × String) → String) (method url : String)
    (body : Option (List Nat)) {h1 h2 : List (String × String)}
    (hne1 : (cache_headers_of h1).isEmpty = false)
    (hne2 : (cache_headers_of h2).isEmpty = false)
    (hsha : Function.Injective sha256hex)
    (hjson : jsonDumps (sortKeys (cache_headers_of h1)) ≠
      jsonDumps (sortKeys (cache_headers_of h2))) :
    generate_cache_key sha256hex md5hex jsonDumps method url (some h1) body ≠
      generate_cache_key sha256hex md5hex jsonDumps method url (some h2) body := by
  intro heq
  unfold generate_cache_key _generate_cache_key at heq
  have hkp := hsha (string_append_left_cancel heq)
  cases body with
  | none =>
    rw [key_parts_some_none, key_parts_some_none] at hkp
    simp only [hne1, hne2, Bool.false_eq_true, if_false] at hkp
    exact hjson (string_append_left_cancel hkp)
  | some b =>
    rw [key_parts_some_some, key_parts_some_some] at hkp
    simp only [hne1, hne2, Bool.false_eq_true, if_false] at hkp
    by_cases hb : b.isEmpty
    · rw [if_pos hb, if_pos hb] at hkp
      exact hjson (string_append_left_cancel hkp)
    · rw [if_neg hb, if_neg hb] at hkp
      have h1c := string_append_right_cancel hkp
      have h2c := string_append_right_cancel h1c
      exact hjson (string_append_left_cancel h2c)

/-- C6 (amended): generate_cache_key is a pure function of its arguments
(deterministic); its result is invariant under reordering of the header
mapping whenever no two header keys share the same lower-casing (with a
shared lower-casing, insertion order picks the surviving value, refuting the
unconditional claim); two requests whose allow-listed header sublists agree
(in particular, requests differing only in a header outside the allow-list)
produce identical keys; and two requests that differ only in the value
stored under a header key whose lower-casing is accept (arbitrary identical
context before and after it, no two keys sharing a lower-casing) have
different sorted filtered mappings, hence different digest inputs and
different keys whenever the digest is injective and the serializer separates
the two sorted mappings. -/
theorem c6_cache_key_invariance_amended (sha256hex : String → String)
    (md5hex : List Nat → String) (jsonDumps : List (String × String) → String)
    (method url : String) (body : Option (List Nat))
    (h1 h2 : List (String × String)) (k v v1 v2 : String)
    (pre post : List (String × String)) (k2 : String) :
    (h1.Perm h2 → (h1.map (fun p => pyLower p.1)).Nodup →
      generate_cache_key sha256hex md5hex jsonDumps method url (some h1) body =
        generate_cache_key sha256hex md5hex jsonDumps method url (some h2) body) ∧
    (h1.filter (fun p => decide (pyLower p.1 ∈ allowList)) =
        h2.filter (fun p => decide (pyLower p.1 ∈ allowList)) →
      generate_cache_key sha256hex md5hex jsonDumps method url (some h1) body =
        generate_cache_key sha256hex md5hex jsonDumps method url (some h2) body) ∧
    (¬ pyLower k ∈ allowList →
      generate_cache_key sha256hex md5hex jsonDumps method url (some (h1 ++ [(k, v)])) body =
        generate_cache_key sha256hex md5hex jsonDumps method url (some h1) body) ∧
    (pyLower k2 = "accept" → v1 ≠ v2 →
      ((pre ++ (k2, v1) :: post).map (fun p => pyLower p.1)).Nodup →
      sortKeys (cache_headers_of (pre ++ (k2, v1) :: post)) ≠
        sortKeys (cache_headers_of (pre ++ (k2, v2) :: post)) ∧
      (Function.Injective sha256hex →
        jsonDumps (sortKeys (cache_headers_of (pre ++ (k2, v1) :: post))) ≠
          jsonDumps (sortKeys (cache_headers_of (pre ++ (k2, v2) :: post))) →
        generate_cache_key sha256hex md5hex jsonDumps method url
            (some (pre ++ (k2, v1) :: post)) body ≠
          generate_cache_key sha256hex md5hex jsonDumps method url
            (some (pre ++ (k2, v2) :: post)) body)) := by
  refine ⟨?_, ?_, ?_, ?_⟩
  · intro hp hnd
    have hnd2 : (h2.map (fun p => pyLower p.1)).Nodup :=
      ((hp.map (fun p => pyLower p.1)).nodup_iff).mp hnd
    have e1 := cache_headers_nodup_eq h1 hnd
    have e2 := cache_headers_nodup_eq h2 hnd2
    have hperm_ch : (cache_headers_of h1).Perm (cache_headers_of h2) := by
      rw [e1, e2]
      exact (hp.filter (fun p => decide (pyLower p.1 ∈ allowList))).map
        (fun p => (pyLower p.1, p.2))
    apply gck_eq_of_sorted_eq
    apply sorted_perm_eq
    · exact (sortKeys_perm _).trans (hperm_ch.trans (sortKeys_perm _).symm)
    · exact sortKeys_sorted _
    · exact sortKeys_sorted _
    · have hnodupch : ((cache_headers_of h1).map Prod.fst).Nodup :=
        cache_headers_keys_nodup h1 hnd
      have hskperm : ((sortKeys (cache_headers_of h1)).map Prod.fst).Perm
          ((cache_headers_of h1).map Prod.fst) := (sortKeys_perm _).map _
      exact hskperm.nodup_iff.mpr hnodupch
  · intro hfil
    exact gck_eq_of_filter_eq sha256hex md5hex jsonDumps method url body hfil
  · intro hk
    apply gck_eq_of_filter_eq
    have hkf : decide (pyLower k ∈ allowList) = false := by
      simpa using hk
    simp [List.filter_append, List.filter_cons, hkf]
  · intro hk hv hnd1
    have hkeys : (pre ++ (k2, v2) :: post).map (fun p => pyLower p.1) =
        (pre ++ (k2, v1) :: post).map (fun p => pyLower p.1) := by
      simp
    have hnd2 : ((pre ++ (k2, v2) :: post).map (fun p => pyLower p.1)).Nodup := by
      rw [hkeys]
      exact hnd1
    have hpassk : decide (pyLower k2 ∈ allowList) = true := by
      rw [hk]
      decide
    have hfil1 : (pre ++ (k2, v1) :: post).filter
          (fun p => decide (pyLower p.1 ∈ allowList)) =
        pre.filter (fun p => decide (pyLower p.1 ∈ allowList)) ++ (k2, v1) ::
          post.filter (fun p => decide (pyLower p.1 ∈ allowList)) := by
      rw [List.filter_append, List.filter_cons]
      simp [hpassk]
    have hfil2 : (pre ++ (k2, v2) :: post).filter
          (fun p => decide (pyLower p.1 ∈ allowList)) =
        pre.filter (fun p => decide (pyLower p.1 ∈ allowList)) ++ (k2, v2) ::
          post.filter (fun p => decide (pyLower p.1 ∈ allowList)) := by
      rw [List.filter_append, List.filter_cons]
      simp [hpassk]
    have hch1 : cache_headers_of (pre ++ (k2, v1) :: post) =
        (pre.filter (fun p => decide (pyLower p.1 ∈ allowList))).map
            (fun p => (pyLower p.1, p.2)) ++ ("accept", v1) ::
          (post.filter (fun p => decide (pyLower p.1 ∈ allowList))).map
            (fun p => (pyLower p.1, p.2)) := by
      rw [cache_headers_nodup_eq _ hnd1, hfil1, List.map_append, List.map_cons]
      simp [hk]
    have hch2 : cache_headers_of (pre ++ (k2, v2) :: post) =
        (pre.filter (fun p => decide (pyLower p.1 ∈ allowList))).map
            (fun p => (pyLower p.1, p.2)) ++ ("accept", v2) ::
          (post.filter (fun p => decide (pyLower p.1 ∈ allowList))).map
            (fun p => (pyLower p.1, p.2)) := by
      rw [cache_headers_nodup_eq _ hnd2, hfil2, List.map_append, List.map_cons]
      simp [hk]
    have hknd2 := cache_headers_keys_nodup (pre ++ (k2, v2) :: post) hnd2
    rw [hch2] at hknd2
    have hsne : sortKeys (cache_headers_of (pre ++ (k2, v1) :: post)) ≠
        sortKeys (cache_headers_of (pre ++ (k2, v2) :: post)) := by
      rw [hch1, hch2]
      intro hs
      exact sorted_ne_of_value_ne hv hknd2 hs
    refine ⟨hsne, ?_⟩
    intro hsha hjson
    refine gck_ne_of_json_ne sha256hex md5hex jsonDumps method url body ?_ ?_ hsha hjson
    · rw [hch1]
      apply isEmpty_false_of_ne_nil
      intro hc
      exact List.noConfusion (List.append_eq_nil.mp hc).2
    · rw [hch2]
      apply isEmpty_false_of_ne_nil
      intro hc
      exact List.noConfusion (List.append_eq_nil.mp hc).2

/-- Witness for C6 at concrete headers and serializers; the accept clause is
exercised with non-allow-listed context on both sides of the accept entry. -/
theorem c6_witness :
    (List.Perm [("Accept", "a"), ("Cookie", "c")] [("Cookie", "c"), ("Accept", "a")] ∧
      (([("Accept", "a"), ("Cookie", "c")] : List (String × String)).map
        (fun p => pyLower p.1)).Nodup ∧
      generate_cache_key shaId md5Const jsonPairs "GET" "/u"
          (some [("Accept", "a"), ("Cookie", "c")]) none =
        generate_cache_key shaId md5Const jsonPairs "GET" "/u"
          (some [("Cookie", "c"), ("Accept", "a")]) none) ∧
    (¬ pyLower "X-Trace" ∈ allowList ∧
      generate_cache_key shaId md5Const jsonPairs "GET" "/u"
          (some ([("Accept", "a"), ("Cookie", "c")] ++ [("X-Trace", "t")])) none =
        generate_cache_key shaId md5Const jsonPairs "GET" "/u"
          (some [("Accept", "a"), ("Cookie", "c")]) none) ∧
    (pyLower "Accept" = "accept" ∧ "x" ≠ "y" ∧
      (([("Cookie", "c"), ("Accept", "x"), ("X-B", "b")] : List (String × String)).map
        (fun p => pyLower p.1)).Nodup ∧
      Function.Injective shaId ∧
      jsonPairs (sortKeys (cache_headers_of
          [("Cookie", "c"), ("Accept", "x"), ("X-B", "b")])) ≠
        jsonPairs (sortKeys (cache_headers_of
          [("Cookie", "c"), ("Accept", "y"), ("X-B", "b")])) ∧
      sortKeys (cache_headers_of [("Cookie", "c"), ("Accept", "x"), ("X-B", "b")]) ≠
        sortKeys (cache_headers_of [("Cookie", "c"), ("Accept", "y"), ("X-B", "b")]) ∧
      generate_cache_key shaId md5Const jsonPairs "GET" "/u"
          (some [("Cookie", "c"), ("Accept", "x"), ("X-B", "b")]) none ≠
        generate_cache_key shaId md5Const jsonPairs "GET" "/u"
          (some [("Cookie", "c"), ("Accept", "y"), ("X-B", "b")]) none) := by
  have h := c6_cache_key_invariance_amended shaId md5Const jsonPairs "GET" "/u" none
    [("Accept", "a"), ("Cookie", "c")] [("Cookie", "c"), ("Accept", "a")]
    "X-Trace" "t" "x" "y" [("Cookie", "c")] [("X-B", "b")] "Accept"
  have h4 := h.2.2.2 (by decide) (by decide) (by decide)
  exact ⟨⟨by decide, by decide, h.1 (by decide) (by decide)⟩,
         ⟨by decide, h.2.2.1 (by decide)⟩,
         ⟨by decide, by decide, by decide, fun a b hh => hh, by decide,
          h4.1, h4.2 (fun a b hh => hh) (by decide)⟩⟩
